import Mathlib

/-!
Shallow embedding of the js-json repository (src/index.js): a lexer driven by
an ordered grammar table of anchored regular patterns, and a recursive descent
parser producing a positioned AST.  Regular patterns are modelled as
deterministic prefix matchers on `List Char`; the lexer and parser are modelled
as explicit state passing over `LexerState`, with JavaScript runtime faults
(TypeError on null/undefined property access, ReferenceError on an undefined
variable) reflected as distinguished error constructors.
-/

namespace JsonJs

/-- Character class `[0-9]` (S_DIGIT). -/
def isDigit (c : Char) : Bool := decide (48 ≤ c.toNat) && decide (c.toNat ≤ 57)

/-- Character class `[1-9]` (S_ONENINE). -/
def isOneNine (c : Char) : Bool := decide (49 ≤ c.toNat) && decide (c.toNat ≤ 57)

/-- Character class `[0-9a-fA-F]` used by the `u` escape. -/
def isHexDigit (c : Char) : Bool :=
  isDigit c || (decide (97 ≤ c.toNat) && decide (c.toNat ≤ 102))
    || (decide (65 ≤ c.toNat) && decide (c.toNat ≤ 70))

/-- Greedy run of digits: the longest all-digit prefix and the remainder. -/
def takeDigits : List Char → List Char × List Char
  | [] => ([], [])
  | c :: cs =>
    if isDigit c then
      match takeDigits cs with
      | (a, b) => (c :: a, b)
    else ([], c :: cs)

/-- Pattern `[0-9]+` (S_DIGITS): one or more digits, greedily. -/
def matchDigits (cs : List Char) : Option (List Char × List Char) :=
  match takeDigits cs with
  | ([], _) => none
  | (l, r) => some (l, r)

/-- Core of S_INT without the optional sign: `(?:[1-9][0-9]+|[0-9])`. -/
def matchIntCore : List Char → Option (List Char × List Char)
  | [] => none
  | [c] => if isDigit c then some ([c], []) else none
  | c1 :: c2 :: rest =>
    if isOneNine c1 && isDigit c2 then
      match takeDigits (c2 :: rest) with
      | (a, b) => some (c1 :: a, b)
    else if isDigit c1 then some ([c1], c2 :: rest)
    else none

/-- Pattern S_INT: `-?(?:(?:[1-9][0-9]+)|[0-9])`. -/
def matchInt : List Char → Option (List Char × List Char)
  | [] => none
  | c :: cs =>
    if c = '-' then
      match matchIntCore cs with
      | some (l, r) => some ('-' :: l, r)
      | none => none
    else matchIntCore (c :: cs)

/-- Pattern S_FRAC: `(?:\.[0-9]+)`. -/
def matchFrac : List Char → Option (List Char × List Char)
  | [] => none
  | c :: cs =>
    if c = '.' then
      match matchDigits cs with
      | some (l, r) => some ('.' :: l, r)
      | none => none
    else none

/-- Pattern S_EXP: `(?:[eE][+-][0-9]+)` — the sign is mandatory. -/
def matchExp : List Char → Option (List Char × List Char)
  | e :: s :: cs =>
    if (e = 'e' || e = 'E') && (s = '+' || s = '-') then
      match matchDigits cs with
      | some (l, r) => some (e :: s :: l, r)
      | none => none
    else none
  | _ => none

/-- Optional sub-pattern `X?`: on failure consume nothing. -/
def matchOpt (m : List Char → Option (List Char × List Char)) (cs : List Char) :
    List Char × List Char :=
  match m cs with
  | some p => p
  | none => ([], cs)

/-- Pattern S_NUMBER: `(?:FRAC EXP?|INT FRAC? EXP?)`. -/
def matchNumber (cs : List Char) : Option (List Char × List Char) :=
  match matchFrac cs with
  | some (f, r) =>
    match matchOpt matchExp r with
    | (e, r2) => some (f ++ e, r2)
  | none =>
    match matchInt cs with
    | some (i, r) =>
      match matchOpt matchFrac r with
      | (f, r2) =>
        match matchOpt matchExp r2 with
        | (e, r3) => some (i ++ f ++ e, r3)
    | none => none

/-- The escape character class `[\\"bfnrt\n\r]` of S_ESCAPE. -/
def isClassEscape (c : Char) : Bool :=
  c == '\\' || c == '"' || c == 'b' || c == 'f' || c == 'n' || c == 'r'
    || c == 't' || c == '\n' || c == '\x0d'

/-- Plain (non escape) string character class `[^\u0000-\u001fb"\\\r\n]` of S_CHAR. -/
def isPlainSChar (c : Char) : Bool :=
  decide (31 < c.toNat) && !(c == 'b') && !(c == '"') && !(c == '\\')
    && !(c == '\x0d') && !(c == '\n')

/-- Body of S_ESCAPE after the leading backslash: `(?:[\\"bfnrt\n\r]|u[0-9a-fA-F]{4})`. -/
def matchEscapeBody : List Char → Option (List Char × List Char)
  | [] => none
  | c :: rest =>
    if isClassEscape c then some ([c], rest)
    else if c == 'u' then
      match rest with
      | a :: b :: c2 :: d :: r2 =>
        if isHexDigit a && isHexDigit b && isHexDigit c2 && isHexDigit d then
          some ([c, a, b, c2, d], r2)
        else none
      | _ => none
    else none

/-- Pattern S_CHAR: `(?:\\ESCAPE|[^\u0000-\u001fb"\\\r\n])`. -/
def matchSChar : List Char → Option (List Char × List Char)
  | [] => none
  | c :: rest =>
    if c == '\\' then
      match matchEscapeBody rest with
      | some (l, r) => some (c :: l, r)
      | none => none
    else if isPlainSChar c then some ([c], rest)
    else none

/-- Greedy `S_CHAR*`, fuelled for structural recursion (each step consumes at
least one character, so fuel equal to the input length is always enough). -/
def matchSChars : Nat → List Char → List Char × List Char
  | 0, cs => ([], cs)
  | fuel + 1, cs =>
    match matchSChar cs with
    | some (l, r) =>
      match matchSChars fuel r with
      | (l2, r2) => (l ++ l2, r2)
    | none => ([], cs)

/-- Pattern S_STRING: `"S_CHAR*"`. -/
def matchString (cs : List Char) : Option (List Char × List Char) :=
  match cs with
  | [] => none
  | c :: rest =>
    if c == '"' then
      match matchSChars rest.length rest with
      | (body, r) =>
        match r with
        | q :: r2 => if q == '"' then some ('"' :: (body ++ ['"']), r2) else none
        | [] => none
    else none

/-- Punctuator class S_PUNC: one of `" : , [ ] { }`. -/
def isPuncChar (c : Char) : Bool :=
  c == '"' || c == ':' || c == ',' || c == '[' || c == ']' || c == '\x7b' || c == '\x7d'

/-- Punctuator pattern: a single punctuator character. -/
def matchPunc : List Char → Option (List Char × List Char)
  | [] => none
  | c :: rest => if isPuncChar c then some ([c], rest) else none

/-- Literal word matcher, used for `true`, `false` and `null`. -/
def matchLit : List Char → List Char → Option (List Char × List Char)
  | [], cs => some ([], cs)
  | _ :: _, [] => none
  | l :: ls, c :: cs =>
    if c == l then
      match matchLit ls cs with
      | some (a, b) => some (c :: a, b)
      | none => none
    else none

/-- Pattern S_BOOL: `(?:true|false)`. -/
def matchBool (cs : List Char) : Option (List Char × List Char) :=
  match matchLit (['t', 'r', 'u', 'e']) cs with
  | some p => some p
  | none => matchLit (['f', 'a', 'l', 's', 'e']) cs

/-- Pattern S_NULL: the literal `null`. -/
def matchNull (cs : List Char) : Option (List Char × List Char) :=
  matchLit (['n', 'u', 'l', 'l']) cs

/-- Token kind constants of the source. -/
def TOKEN_STRING : String := "string"

/-- Token kind for punctuators. -/
def TOKEN_PUNCTUATOR : String := "punctuator"

/-- Token kind for numbers. -/
def TOKEN_NUMBER : String := "number"

/-- Token kind for booleans. -/
def TOKEN_BOOLEAN : String := "boolean"

/-- Token kind for the null literal. -/
def TOKEN_NULL : String := "null"

/-- Token record: `end = start + value.length` is computed by the constructor. -/
structure Token where
  type : String
  value : List Char
  start : Nat
  endPos : Nat
deriving DecidableEq, Repr

/-- The Token constructor of the source. -/
def mkToken (type : String) (value : List Char) (start : Nat) : Token :=
  ⟨type, value, start, start + value.length⟩

/-- Errors a parse can abort with.  `thrown` models `throw new Error(msg)`;
`typeError` models the runtime fault of reading a property of null or
undefined; `refError` models a ReferenceError from an undefined variable;
`rangeError` models call stack exhaustion on unbounded recursion. -/
inductive JsError where
  | thrown (msg : String)
  | typeError (msg : String)
  | refError (msg : String)
  | rangeError (msg : String)
deriving DecidableEq, Repr

/-- Number of leading characters skipped by `skipWhitespace`: any run of
characters with code at most 32, with a carriage return followed by a line
feed stepped over as one unit. -/
def wsCount : List Char → Nat
  | [] => 0
  | [c] => if c.toNat ≤ 32 then 1 else 0
  | c :: d :: rest =>
    if c.toNat = 13 then
      if d.toNat = 10 then 2 + wsCount rest else 1 + wsCount (d :: rest)
    else if c.toNat ≤ 32 then 1 + wsCount (d :: rest)
    else 0

/-- The lexer index after `skipWhitespace` starting from `index`. -/
def skipWhitespace (src : List Char) (index : Nat) : Nat :=
  index + wsCount (src.drop index)

/-- JavaScript `source[i]` rendered inside a template literal: the one
character string, or the text `undefined` out of bounds. -/
def charAtStr (src : List Char) (i : Nat) : String :=
  match src.get? i with
  | some c => String.mk ([c])
  | none => "undefined"

/-- Finish a successful `lex`: build the token, advance past it and skip
trailing whitespace. -/
def lexFinish (src : List Char) (type : String) (l : List Char) (i : Nat) :
    Except JsError (Token × Nat) :=
  .ok (mkToken type l i, skipWhitespace src (i + l.length))

/-- One step of the lexer: skip whitespace, then try each grammar category in
order (string, number, punctuator, boolean, null); on failure throw the
lexical error naming the offending character. -/
def lex (src : List Char) (index : Nat) : Except JsError (Token × Nat) :=
  let i := skipWhitespace src index
  let input := src.drop i
  match matchString input with
  | some (l, _) => lexFinish src TOKEN_STRING l i
  | none =>
  match matchNumber input with
  | some (l, _) => lexFinish src TOKEN_NUMBER l i
  | none =>
  match matchPunc input with
  | some (l, _) => lexFinish src TOKEN_PUNCTUATOR l i
  | none =>
  match matchBool input with
  | some (l, _) => lexFinish src TOKEN_BOOLEAN l i
  | none =>
  match matchNull input with
  | some (l, _) => lexFinish src TOKEN_NULL l i
  | none => .error (.thrown ("Unexpected token \x27" ++ charAtStr src i ++ "\x27"))

/-- Mutable state of a Lexer object: read cursor and lookahead stash. -/
structure LexerState where
  source : List Char
  index : Nat
  stash : List Token
deriving DecidableEq, Repr

/-- The `hasEnded` test of the lexer. -/
def hasEnded (st : LexerState) : Bool := decide (st.source.length ≤ st.index)

/-- The body of `lookahead`: the `while (times-- > -1)` loop, which lexes and
stashes `times + 1` further tokens, stopping early when the input is
exhausted. -/
def fillLoop (src : List Char) : Nat → Nat → List Token → Except JsError (Nat × List Token)
  | 0, index, stash =>
    if src.length ≤ index then .ok (index, stash)
    else
      match lex src index with
      | .error e => .error e
      | .ok (t, idx2) => .ok (idx2, stash ++ [t])
  | times + 1, index, stash =>
    if src.length ≤ index then .ok (index, stash)
    else
      match lex src index with
      | .error e => .error e
      | .ok (t, idx2) => fillLoop src times idx2 (stash ++ [t])

/-- The `lookahead(n)` method: fill the stash, then return the token at
position `n` of the stash, or the null sentinel when there is none. -/
def lookahead (st : LexerState) (n : Nat) : Except JsError (Option Token × LexerState) :=
  match fillLoop st.source n st.index st.stash with
  | .error e => .error e
  | .ok (idx2, stash2) => .ok (stash2.get? n, ⟨st.source, idx2, stash2⟩)

/-- The `peek()` method: `lookahead(0)`. -/
def peek (st : LexerState) : Except JsError (Option Token × LexerState) :=
  lookahead st 0

/-- Result of the iterator style `next()`: the done flag with its value. -/
inductive NextResult where
  | done
  | tok (t : Token)
deriving DecidableEq, Repr

/-- The `next()` method: pop the oldest stashed token, report done on
exhausted input, or lex a fresh token. -/
def next (st : LexerState) : Except JsError (NextResult × LexerState) :=
  match st.stash with
  | t :: rest => .ok (.tok t, ⟨st.source, st.index, rest⟩)
  | [] =>
    if st.source.length ≤ st.index then .ok (.done, st)
    else
      match lex st.source st.index with
      | .error e => .error e
      | .ok (t, idx2) => .ok (.tok t, ⟨st.source, idx2, []⟩)

/-- The parser primitive `ensure(...expected)`: consume a token and check its
lexeme is one of the expected values.  On failure the template literal
stringifies the arguments object as `[object Arguments]`; when the stream was
done the token is undefined and reading `.value` is a TypeError. -/
def ensure (st : LexerState) (expected : List (List Char)) :
    Except JsError (Token × LexerState) :=
  match next st with
  | .error e => .error e
  | .ok (.tok t, st2) =>
    if expected.any (fun x => decide (t.value = x)) then .ok (t, st2)
    else
      .error (.thrown ("Expected \x27[object Arguments]\x27, got \x27"
        ++ String.mk t.value ++ "\x27"))
  | .ok (.done, _) =>
    .error (.typeError ("Cannot read properties of undefined (reading \x27value\x27)"))

/-- The parser primitive `ensureType(...kinds)`: consume a token and check its
kind.  The failure path of the source references the undefined variable
`value`, so a kind mismatch raises a ReferenceError; when the stream was done,
reading `.value` of undefined in the same template raises a TypeError first. -/
def ensureType (st : LexerState) (expected : List String) :
    Except JsError (Token × LexerState) :=
  match next st with
  | .error e => .error e
  | .ok (.tok t, st2) =>
    if expected.any (fun x => decide (t.type = x)) then .ok (t, st2)
    else .error (.refError ("value is not defined"))
  | .ok (.done, _) =>
    .error (.typeError ("Cannot read properties of undefined (reading \x27value\x27)"))

/-- The parser primitive `is(value)`: peek and compare the lexeme.  When the
peek yields the null sentinel, `peek().value` is a TypeError. -/
def is (st : LexerState) (v : List Char) : Except JsError (Bool × LexerState) :=
  match peek st with
  | .error e => .error e
  | .ok (some t, st2) => .ok (decide (t.value = v), st2)
  | .ok (none, _) =>
    .error (.typeError ("Cannot read properties of null (reading \x27value\x27)"))

/-- Property node: the source constructor receives `(key, value, start, end)`
but stores only `type`, `key`, `start` and `end` — the value is dropped.  The
stored end is an `Option` because the end passed in is `value.end`, which is
undefined when the value is a NullLiteral. -/
structure Property where
  key : Token
  start : Nat
  endPos : Option Nat
deriving DecidableEq, Repr

/-- AST nodes.  `nullLiteral` carries an optional end because `parseValue`
constructs it from the start offset alone, leaving `end` undefined. -/
inductive Node where
  | objectLiteral (properties : List Property) (start : Nat) (endPos : Nat)
  | arrayLiteral (elements : List Node) (start : Nat) (endPos : Nat)
  | stringLiteral (value : List Char) (start : Nat) (endPos : Nat)
  | numericLiteral (value : List Char) (start : Nat) (endPos : Nat)
  | booleanLiteral (value : List Char) (start : Nat) (endPos : Nat)
  | nullLiteral (start : Nat) (endPos : Option Nat)

/-- Start offset of a node. -/
def nodeStart : Node → Nat
  | .objectLiteral _ s _ => s
  | .arrayLiteral _ s _ => s
  | .stringLiteral _ s _ => s
  | .numericLiteral _ s _ => s
  | .booleanLiteral _ s _ => s
  | .nullLiteral s _ => s

/-- End offset of a node, when assigned. -/
def nodeEnd : Node → Option Nat
  | .objectLiteral _ _ e => some e
  | .arrayLiteral _ _ e => some e
  | .stringLiteral _ _ e => some e
  | .numericLiteral _ _ e => some e
  | .booleanLiteral _ _ e => some e
  | .nullLiteral _ e => e

/-- End offset of a node with the start as fallback for an unassigned end. -/
def nodeEndB (n : Node) : Nat := (nodeEnd n).getD (nodeStart n)

/-- The Property constructor of the source: it receives the value but does not
store it. -/
def mkProperty (key : Token) (value : Node) (start : Nat) (endPos : Option Nat) :
    Property :=
  ⟨key, start, endPos⟩

/-- Lexeme of the open brace punctuator. -/
def lbraceV : List Char := ['\x7b']

/-- Lexeme of the close brace punctuator. -/
def rbraceV : List Char := ['\x7d']

/-- Lexeme of the open bracket punctuator. -/
def lbrackV : List Char := ['[']

/-- Lexeme of the close bracket punctuator. -/
def rbrackV : List Char := [']']

/-- Lexeme of the colon punctuator. -/
def colonV : List Char := [':']

/-- Lexeme of the comma punctuator. -/
def commaV : List Char := [',']

/-- Fuel exhaustion stands in for the call stack overflow of unbounded
recursion. -/
def stackOverflowError : JsError := .rangeError ("Maximum call stack size exceeded")

mutual

/-- The `parseValue` method: peek, fail on the null sentinel, dispatch on the
peeked lexeme and kind. -/
def parseValue : Nat → LexerState → Except JsError (Node × LexerState)
  | 0, _ => .error stackOverflowError
  | fuel + 1, st =>
    match peek st with
    | .error e => .error e
    | .ok (none, _) => .error (.thrown ("Unexpected end of input"))
    | .ok (some token, st1) =>
      match is st1 lbraceV with
      | .error e => .error e
      | .ok (b1, st2) =>
        if b1 then parseObjectLiteral fuel st2
        else
          match is st2 lbrackV with
          | .error e => .error e
          | .ok (b2, st3) =>
            if b2 then parseArrayLiteral fuel st3
            else if token.type = TOKEN_BOOLEAN then
              match next st3 with
              | .error e => .error e
              | .ok (_, st4) => .ok (.booleanLiteral token.value token.start token.endPos, st4)
            else if token.type = TOKEN_STRING then
              match next st3 with
              | .error e => .error e
              | .ok (_, st4) => .ok (.stringLiteral token.value token.start token.endPos, st4)
            else if token.type = TOKEN_NUMBER then
              match next st3 with
              | .error e => .error e
              | .ok (_, st4) => .ok (.numericLiteral token.value token.start token.endPos, st4)
            else if token.type = TOKEN_NULL then
              match next st3 with
              | .error e => .error e
              | .ok (_, st4) => .ok (.nullLiteral token.start none, st4)
            else .error (.thrown ("Unexpected token " ++ String.mk token.value))

/-- The `parseObjectLiteral` method. -/
def parseObjectLiteral : Nat → LexerState → Except JsError (Node × LexerState)
  | 0, _ => .error stackOverflowError
  | fuel + 1, st =>
    match ensure st [lbraceV] with
    | .error e => .error e
    | .ok (startToken, st1) =>
      match parseObjectLoop fuel st1 [] with
      | .error e => .error e
      | .ok (props, st2) =>
        match ensure st2 [rbraceV] with
        | .error e => .error e
        | .ok (endToken, st3) =>
          .ok (.objectLiteral props startToken.start endToken.endPos, st3)

/-- The member loop of `parseObjectLiteral`: `while (!this.is(rbrace))`. -/
def parseObjectLoop : Nat → LexerState → List Property →
    Except JsError (List Property × LexerState)
  | 0, _, _ => .error stackOverflowError
  | fuel + 1, st, props =>
    match is st rbraceV with
    | .error e => .error e
    | .ok (true, st1) => .ok (props, st1)
    | .ok (false, st1) =>
      match ensureType st1 [TOKEN_STRING, TOKEN_NUMBER] with
      | .error e => .error e
      | .ok (key, st2) =>
        match ensure st2 [colonV] with
        | .error e => .error e
        | .ok (_, st3) =>
          match parseValue fuel st3 with
          | .error e => .error e
          | .ok (value, st4) =>
            match is st4 rbraceV with
            | .error e => .error e
            | .ok (true, st5) =>
              parseObjectLoop fuel st5
                (props ++ [mkProperty key value key.start (nodeEnd value)])
            | .ok (false, st5) =>
              match ensure st5 [commaV] with
              | .error e => .error e
              | .ok (_, st6) =>
                parseObjectLoop fuel st6
                  (props ++ [mkProperty key value key.start (nodeEnd value)])

/-- The `parseArrayLiteral` method. -/
def parseArrayLiteral : Nat → LexerState → Except JsError (Node × LexerState)
  | 0, _ => .error stackOverflowError
  | fuel + 1, st =>
    match ensure st [lbrackV] with
    | .error e => .error e
    | .ok (startToken, st1) =>
      match parseArrayLoop fuel st1 [] with
      | .error e => .error e
      | .ok (elems, st2) =>
        match ensure st2 [rbrackV] with
        | .error e => .error e
        | .ok (endToken, st3) =>
          .ok (.arrayLiteral elems startToken.start endToken.endPos, st3)

/-- The element loop of `parseArrayLiteral`: `while (!this.is(rbrack))`. -/
def parseArrayLoop : Nat → LexerState → List Node →
    Except JsError (List Node × LexerState)
  | 0, _, _ => .error stackOverflowError
  | fuel + 1, st, elems =>
    match is st rbrackV with
    | .error e => .error e
    | .ok (true, st1) => .ok (elems, st1)
    | .ok (false, st1) =>
      match parseValue fuel st1 with
      | .error e => .error e
      | .ok (el, st2) =>
        match is st2 rbrackV with
        | .error e => .error e
        | .ok (true, st3) => parseArrayLoop fuel st3 (elems ++ [el])
        | .ok (false, st3) =>
          match ensure st3 [commaV] with
          | .error e => .error e
          | .ok (_, st4) => parseArrayLoop fuel st4 (elems ++ [el])

end

/-- The result of `parse`: an object with the single field `program`. -/
structure ParseResult where
  program : Node

/-- The `parse` entry point over a character list: build a fresh parser and
lexer and parse one value; the fuel covers any call depth reachable from an
input of this length. -/
def parseChars (input : List Char) : Except JsError ParseResult :=
  match parseValue (3 * input.length + 8) ⟨input, 0, []⟩ with
  | .error e => .error e
  | .ok (n, _) => .ok ⟨n⟩

/-- The `parse` entry point of the module. -/
def parse (input : String) : Except JsError ParseResult := parseChars input.data

/-! Basic facts about the digit classes and the greedy digit run. -/

theorem isDigit_iff (c : Char) : isDigit c = true ↔ 48 ≤ c.toNat ∧ c.toNat ≤ 57 := by
  simp [isDigit]

theorem takeDigits_cons (c : Char) (cs : List Char) :
    takeDigits (c :: cs) =
      if isDigit c then (c :: (takeDigits cs).1, (takeDigits cs).2) else ([], c :: cs) := by
  by_cases h : isDigit c <;> simp [takeDigits, h]

theorem takeDigits_append_eq (cs : List Char) :
    (takeDigits cs).1 ++ (takeDigits cs).2 = cs := by
  induction cs with
  | nil => simp [takeDigits]
  | cons c cs ih =>
    rw [takeDigits_cons]
    by_cases h : isDigit c <;> simp [h, ih]

theorem takeDigits_all_digits (cs : List Char) :
    ∀ c ∈ (takeDigits cs).1, isDigit c = true := by
  induction cs with
  | nil => simp [takeDigits]
  | cons c cs ih =>
    rw [takeDigits_cons]
    by_cases h : isDigit c <;> simp [h]
    intro x hx
    exact ih x hx

theorem takeDigits_stop (cs : List Char) :
    ∀ c, (takeDigits cs).2.head? = some c → isDigit c = false := by
  induction cs with
  | nil => simp [takeDigits]
  | cons c cs ih =>
    rw [takeDigits_cons]
    by_cases h : isDigit c
    · simpa [h] using ih
    · simp only [h, if_false, List.head?_cons]
      intro x hx
      cases hx
      simpa using h

/-- A list whose head is not a digit (or which is empty). -/
def NonDigitHead (t : List Char) : Prop :=
  ∀ c, t.head? = some c → isDigit c = false

theorem takeDigits_det (ds t : List Char) (hds : ∀ c ∈ ds, isDigit c = true)
    (ht : NonDigitHead t) : takeDigits (ds ++ t) = (ds, t) := by
  induction ds with
  | nil =>
    cases t with
    | nil => simp [takeDigits]
    | cons c cs =>
      have : isDigit c = false := ht c rfl
      simp [takeDigits_cons, this]
  | cons d ds ih =>
    have hd : isDigit d = true := hds d (by simp)
    rw [List.cons_append, takeDigits_cons, if_pos hd,
      ih (fun c hc => hds c (by simp [hc]))]

theorem matchDigits_eq_some (cs l r : List Char) :
    matchDigits cs = some (l, r) ↔ takeDigits cs = (l, r) ∧ l ≠ [] := by
  unfold matchDigits
  rcases h : takeDigits cs with ⟨a, b⟩
  cases a with
  | nil =>
    simp
    exact fun h1 _ => h1
  | cons x xs =>
    constructor
    · intro h2
      cases h2
      exact ⟨rfl, by simp⟩
    · rintro ⟨h2, -⟩
      cases h2
      rfl

theorem matchDigits_det (ds t : List Char) (hne : ds ≠ [])
    (hds : ∀ c ∈ ds, isDigit c = true) (ht : NonDigitHead t) :
    matchDigits (ds ++ t) = some (ds, t) := by
  rw [matchDigits_eq_some]
  exact ⟨takeDigits_det ds t hds ht, hne⟩

theorem matchDigits_inv (cs l r : List Char) (h : matchDigits cs = some (l, r)) :
    cs = l ++ r ∧ l ≠ [] ∧ (∀ c ∈ l, isDigit c = true) ∧ NonDigitHead r := by
  rw [matchDigits_eq_some] at h
  obtain ⟨h1, h2⟩ := h
  refine ⟨?_, h2, ?_, ?_⟩
  · rw [← takeDigits_append_eq cs, h1]
  · intro c hc
    have := takeDigits_all_digits cs
    rw [h1] at this
    exact this c hc
  · intro c hc
    have := takeDigits_stop cs
    rw [h1] at this
    exact this c hc

/-! Shapes of the numeric sub-patterns, with inversion and determinism. -/

/-- A nonempty all-digit word. -/
def DigitsNE (ds : List Char) : Prop := ds ≠ [] ∧ ∀ c ∈ ds, isDigit c = true

/-- Words matched by the unsigned integer core `(?:[1-9][0-9]+|[0-9])`. -/
def IntCoreShape (l : List Char) : Prop :=
  (∃ d, l = [d] ∧ isDigit d = true) ∨
  (∃ a b ds, l = a :: b :: ds ∧ isOneNine a = true ∧ isDigit b = true ∧
    ∀ c ∈ ds, isDigit c = true)

/-- Words matched by S_INT. -/
def IntShape (l : List Char) : Prop :=
  IntCoreShape l ∨ ∃ m, l = '-' :: m ∧ IntCoreShape m

/-- Words matched by S_FRAC. -/
def FracShape (l : List Char) : Prop := ∃ ds, l = '.' :: ds ∧ DigitsNE ds

/-- Words matched by S_EXP: an exponent letter, a mandatory sign, digits. -/
def ExpShape (l : List Char) : Prop :=
  ∃ e s ds, l = e :: s :: ds ∧ (e = 'e' ∨ e = 'E') ∧ (s = '+' ∨ s = '-') ∧ DigitsNE ds

theorem isDigit_ne_chars (c : Char) (h : isDigit c = true) :
    c ≠ '.' ∧ c ≠ '-' ∧ c ≠ 'e' ∧ c ≠ 'E' ∧ c ≠ '"' ∧ c ≠ '\x7b' ∧ c ≠ '[' ∧ c ≠ '+' := by
  rw [isDigit_iff] at h
  refine ⟨?_, ?_, ?_, ?_, ?_, ?_, ?_, ?_⟩ <;>
    (rintro rfl; revert h; decide)

theorem expShape_nonDigitHead (le : List Char) (h : ExpShape le) : NonDigitHead le := by
  obtain ⟨e, s, ds, rfl, he, -, -⟩ := h
  intro c hc
  cases hc
  rcases he with rfl | rfl <;> decide

theorem fracShape_nonDigitHead (lf : List Char) (h : FracShape lf) : NonDigitHead lf := by
  obtain ⟨ds, rfl, -⟩ := h
  intro c hc
  cases hc
  decide

theorem matchIntCore_det (l t : List Char) (hl : IntCoreShape l) (ht : NonDigitHead t) :
    matchIntCore (l ++ t) = some (l, t) := by
  rcases hl with ⟨d, rfl, hd⟩ | ⟨a, b, ds, rfl, ha, hb, hds⟩
  · cases t with
    | nil => simp [matchIntCore, hd]
    | cons c2 rest =>
      have hc2 : isDigit c2 = false := ht c2 rfl
      simp [matchIntCore, hc2, hd]
  · have hstep : takeDigits (b :: ds ++ t) = (b :: ds, t) := by
      refine takeDigits_det (b :: ds) t ?_ ht
      intro c hc
      rcases List.mem_cons.mp hc with rfl | hc
      · exact hb
      · exact hds c hc
    rw [List.cons_append] at hstep
    simp [matchIntCore, ha, hb, List.cons_append, hstep]

theorem intCoreShape_head (l : List Char) (h : IntCoreShape l) :
    ∃ c cs, l = c :: cs ∧ isDigit c = true := by
  rcases h with ⟨d, rfl, hd⟩ | ⟨a, b, ds, rfl, ha, hb, hds⟩
  · exact ⟨d, [], rfl, hd⟩
  · refine ⟨a, b :: ds, rfl, ?_⟩
    have := ha
    rw [isOneNine] at this
    rw [isDigit_iff]
    simp only [Bool.and_eq_true, decide_eq_true_eq] at this
    omega

theorem matchInt_det (l t : List Char) (hl : IntShape l) (ht : NonDigitHead t) :
    matchInt (l ++ t) = some (l, t) := by
  rcases hl with hcore | ⟨m, rfl, hm⟩
  · obtain ⟨c, cs, rfl, hc⟩ := intCoreShape_head _ hcore
    have hne : ¬(c = '-') := (isDigit_ne_chars c hc).2.1
    rw [List.cons_append, matchInt, if_neg hne, ← List.cons_append,
      matchIntCore_det _ _ hcore ht]
  · rw [List.cons_append, matchInt, if_pos rfl, matchIntCore_det _ _ hm ht]

theorem matchFrac_det (l t : List Char) (hl : FracShape l) (ht : NonDigitHead t) :
    matchFrac (l ++ t) = some (l, t) := by
  obtain ⟨ds, rfl, hne, hds⟩ := hl
  rw [List.cons_append, matchFrac, if_pos rfl, matchDigits_det ds t hne hds ht]

theorem matchExp_det (l t : List Char) (hl : ExpShape l) (ht : NonDigitHead t) :
    matchExp (l ++ t) = some (l, t) := by
  obtain ⟨e, s, ds, rfl, he, hs, hne, hds⟩ := hl
  have hd := matchDigits_det ds t hne hds ht
  rcases he with rfl | rfl <;> rcases hs with rfl | rfl <;>
    simp [matchExp, List.cons_append, hd]

theorem matchFrac_none (cs : List Char) (h : ∀ c, cs.head? = some c → c ≠ '.') :
    matchFrac cs = none := by
  cases cs with
  | nil => rfl
  | cons c rest =>
    have := h c rfl
    simp [matchFrac, this]

theorem matchExp_none_nil : matchExp [] = none := rfl

/-- Words matched by S_NUMBER: a fraction with optional exponent, or an
integer with optional fraction and optional exponent. -/
def NumShape (l : List Char) : Prop :=
  (∃ lf le, l = lf ++ le ∧ FracShape lf ∧ (le = [] ∨ ExpShape le)) ∨
  (∃ li lf le, l = li ++ lf ++ le ∧ IntShape li ∧ (lf = [] ∨ FracShape lf) ∧
    (le = [] ∨ ExpShape le))

theorem matchNumber_det (l : List Char) (h : NumShape l) :
    matchNumber l = some (l, []) := by
  have hExpOpt : ∀ le : List Char, le = [] ∨ ExpShape le →
      matchOpt matchExp le = (le, []) := by
    rintro le (rfl | hle)
    · rfl
    · have : matchExp (le ++ []) = some (le, []) := matchExp_det le [] hle (by intro c hc; cases hc)
      rw [List.append_nil] at this
      simp [matchOpt, this]
  rcases h with ⟨lf, le, rfl, hf, hle⟩ | ⟨li, lf, le, rfl, hi, hlf, hle⟩
  · have hfr : matchFrac (lf ++ le) = some (lf, le) := by
      refine matchFrac_det lf le hf ?_
      rcases hle with rfl | hle
      · intro c hc; cases hc
      · exact expShape_nonDigitHead le hle
    simp only [matchNumber, hfr, hExpOpt le hle]
  · have hihead : ∃ c cs, li = c :: cs ∧ (c = '-' ∨ isDigit c = true) := by
      rcases hi with hcore | ⟨m, rfl, hm⟩
      · obtain ⟨c, cs, rfl, hc⟩ := intCoreShape_head _ hcore
        exact ⟨c, cs, rfl, Or.inr hc⟩
      · exact ⟨'-', m, rfl, Or.inl rfl⟩
    have hndh : NonDigitHead (lf ++ le) := by
      intro c hc
      cases lf with
      | nil =>
        simp only [List.nil_append] at hc
        rcases hle with rfl | hle
        · cases hc
        · exact expShape_nonDigitHead le hle c hc
      | cons x xs =>
        rcases hlf with h0 | hlf
        · cases h0
        · obtain ⟨ds, hds, -⟩ := hlf
          cases hds
          cases hc
          decide
    have hfr0 : matchFrac (li ++ lf ++ le) = none := by
      refine matchFrac_none _ ?_
      obtain ⟨c, cs, rfl, hc⟩ := hihead
      intro x hx
      simp only [List.cons_append, List.head?_cons] at hx
      cases hx
      rcases hc with rfl | hc
      · decide
      · exact (isDigit_ne_chars _ hc).1
    have hint : matchInt (li ++ (lf ++ le)) = some (li, lf ++ le) :=
      matchInt_det li (lf ++ le) hi hndh
    have hfrOpt : matchOpt matchFrac (lf ++ le) = (lf, le) := by
      rcases hlf with rfl | hlf
      · simp only [List.nil_append]
        have : matchFrac le = none := by
          refine matchFrac_none _ ?_
          rcases hle with rfl | hle
          · intro c hc; cases hc
          · obtain ⟨e, s, ds, rfl, he, -, -⟩ := hle
            intro c hc
            cases hc
            rcases he with rfl | rfl <;> decide
        simp [matchOpt, this]
      · have := matchFrac_det lf le hlf (by
          rcases hle with rfl | hle
          · intro c hc; cases hc
          · exact expShape_nonDigitHead le hle)
        simp [matchOpt, this]
    rw [List.append_assoc] at hfr0
    simp only [matchNumber, List.append_assoc, hfr0, hint, hfrOpt, hExpOpt le hle]

/-! Inversion lemmas for the numeric matchers. -/

theorem matchOpt_cases (m : List Char → Option (List Char × List Char))
    (cs a b : List Char) (h : matchOpt m cs = (a, b)) :
    (a = [] ∧ b = cs) ∨ m cs = some (a, b) := by
  rcases hm : m cs with - | ⟨x, y⟩ <;> simp only [matchOpt, hm] at h
  · rw [Prod.mk.injEq] at h
    exact Or.inl ⟨h.1.symm, h.2.symm⟩
  · rw [Prod.mk.injEq] at h
    obtain ⟨rfl, rfl⟩ := h
    exact Or.inr rfl

theorem matchIntCore_inv (cs l r : List Char) (h : matchIntCore cs = some (l, r)) :
    cs = l ++ r ∧ IntCoreShape l := by
  match cs with
  | [] => cases h
  | [c] =>
    simp only [matchIntCore] at h
    by_cases hc : isDigit c = true
    · rw [if_pos hc, Option.some.injEq, Prod.mk.injEq] at h
      obtain ⟨rfl, rfl⟩ := h
      exact ⟨rfl, Or.inl ⟨c, rfl, hc⟩⟩
    · rw [if_neg hc] at h
      cases h
  | c1 :: c2 :: rest =>
    simp only [matchIntCore] at h
    by_cases h1 : (isOneNine c1 && isDigit c2) = true
    · rw [if_pos h1] at h
      rcases htd : takeDigits (c2 :: rest) with ⟨a, b⟩
      simp only [htd, Option.some.injEq, Prod.mk.injEq] at h
      obtain ⟨rfl, rfl⟩ := h
      obtain ⟨h1a, h1b⟩ := Bool.and_eq_true_iff.mp h1
      have happ := takeDigits_append_eq (c2 :: rest)
      rw [htd] at happ
      constructor
      · rw [List.cons_append, happ]
      · have hdig := takeDigits_all_digits (c2 :: rest)
        rw [htd] at hdig
        rw [takeDigits_cons, if_pos h1b] at htd
        rw [Prod.mk.injEq] at htd
        obtain ⟨hteq, -⟩ := htd
        rw [← hteq]
        exact Or.inr ⟨c1, c2, _, rfl, h1a, h1b, fun c hc =>
          hdig c (by rw [← hteq]; simp [hc])⟩
    · rw [if_neg h1] at h
      by_cases hc1 : isDigit c1 = true
      · rw [if_pos hc1, Option.some.injEq, Prod.mk.injEq] at h
        obtain ⟨rfl, rfl⟩ := h
        exact ⟨rfl, Or.inl ⟨c1, rfl, hc1⟩⟩
      · rw [if_neg hc1] at h
        cases h

theorem matchInt_inv (cs l r : List Char) (h : matchInt cs = some (l, r)) :
    cs = l ++ r ∧ IntShape l := by
  match cs with
  | [] => cases h
  | c :: cs2 =>
    simp only [matchInt] at h
    by_cases hc : c = '-'
    · rw [if_pos hc] at h
      rcases hm : matchIntCore cs2 with - | ⟨ml, mr⟩ <;> simp only [hm] at h
      · cases h
      rw [Option.some.injEq, Prod.mk.injEq] at h
      obtain ⟨rfl, rfl⟩ := h
      obtain ⟨heq, hsh⟩ := matchIntCore_inv cs2 ml mr hm
      subst hc
      exact ⟨by rw [List.cons_append, ← heq], Or.inr ⟨ml, rfl, hsh⟩⟩
    · rw [if_neg hc] at h
      obtain ⟨heq, hsh⟩ := matchIntCore_inv (c :: cs2) l r h
      exact ⟨heq, Or.inl hsh⟩

theorem matchFrac_inv (cs l r : List Char) (h : matchFrac cs = some (l, r)) :
    cs = l ++ r ∧ FracShape l ∧ NonDigitHead r := by
  match cs with
  | [] => cases h
  | c :: cs2 =>
    simp only [matchFrac] at h
    by_cases hc : c = '.'
    · rw [if_pos hc] at h
      rcases hm : matchDigits cs2 with - | ⟨ml, mr⟩ <;> simp only [hm] at h
      · cases h
      rw [Option.some.injEq, Prod.mk.injEq] at h
      obtain ⟨rfl, rfl⟩ := h
      obtain ⟨heq, hne, hdig, hndh⟩ := matchDigits_inv cs2 ml mr hm
      subst hc
      exact ⟨by rw [List.cons_append, ← heq], ⟨ml, rfl, hne, hdig⟩, hndh⟩
    · rw [if_neg hc] at h
      cases h

theorem matchExp_inv (cs l r : List Char) (h : matchExp cs = some (l, r)) :
    cs = l ++ r ∧ ExpShape l ∧ NonDigitHead r := by
  match cs with
  | [] => cases h
  | [c] => cases h
  | e :: s :: cs2 =>
    simp only [matchExp] at h
    by_cases hc : ((e = 'e' || e = 'E') && (s = '+' || s = '-')) = true
    · rw [if_pos hc] at h
      rcases hm : matchDigits cs2 with - | ⟨ml, mr⟩ <;> simp only [hm] at h
      · cases h
      rw [Option.some.injEq, Prod.mk.injEq] at h
      obtain ⟨rfl, rfl⟩ := h
      obtain ⟨heq, hne, hdig, hndh⟩ := matchDigits_inv cs2 ml mr hm
      obtain ⟨he, hs⟩ := Bool.and_eq_true_iff.mp hc
      simp only [Bool.or_eq_true, decide_eq_true_eq] at he hs
      refine ⟨by rw [List.cons_append, List.cons_append, ← heq], ?_, hndh⟩
      exact ⟨e, s, ml, rfl, he, hs, hne, hdig⟩
    · rw [if_neg hc] at h
      cases h

theorem matchNumber_inv (cs l r : List Char) (h : matchNumber cs = some (l, r)) :
    cs = l ++ r ∧ NumShape l := by
  rcases hf : matchFrac cs with - | ⟨f, r1⟩
  · rcases hi : matchInt cs with - | ⟨i, ri⟩
    · simp only [matchNumber, hf, hi] at h
      cases h
    · obtain ⟨heqi, hshi⟩ := matchInt_inv cs i ri hi
      rcases hfo : matchOpt matchFrac ri with ⟨f2, r2⟩
      rcases heo : matchOpt matchExp r2 with ⟨e2, r3⟩
      simp only [matchNumber, hf, hi, hfo, heo, Option.some.injEq, Prod.mk.injEq] at h
      obtain ⟨rfl, rfl⟩ := h
      have hfr : ri = f2 ++ r2 ∧ (f2 = [] ∨ FracShape f2) := by
        rcases matchOpt_cases matchFrac ri f2 r2 hfo with ⟨rfl, rfl⟩ | hm
        · exact ⟨by simp, Or.inl rfl⟩
        · obtain ⟨h1, h2, -⟩ := matchFrac_inv ri f2 r2 hm
          exact ⟨h1, Or.inr h2⟩
      have her : r2 = e2 ++ r3 ∧ (e2 = [] ∨ ExpShape e2) := by
        rcases matchOpt_cases matchExp r2 e2 r3 heo with ⟨rfl, rfl⟩ | hm
        · exact ⟨by simp, Or.inl rfl⟩
        · obtain ⟨h1, h2, -⟩ := matchExp_inv r2 e2 r3 hm
          exact ⟨h1, Or.inr h2⟩
      refine ⟨?_, Or.inr ⟨i, f2, e2, rfl, hshi, hfr.2, her.2⟩⟩
      rw [heqi, hfr.1, her.1]
      simp [List.append_assoc]
  · obtain ⟨heqf, hshf, -⟩ := matchFrac_inv cs f r1 hf
    rcases heo : matchOpt matchExp r1 with ⟨e2, r3⟩
    simp only [matchNumber, hf, heo, Option.some.injEq, Prod.mk.injEq] at h
    obtain ⟨rfl, rfl⟩ := h
    have her : r1 = e2 ++ r3 ∧ (e2 = [] ∨ ExpShape e2) := by
      rcases matchOpt_cases matchExp r1 e2 r3 heo with ⟨rfl, rfl⟩ | hm
      · exact ⟨by simp, Or.inl rfl⟩
      · obtain ⟨h1, h2, -⟩ := matchExp_inv r1 e2 r3 hm
        exact ⟨h1, Or.inr h2⟩
    refine ⟨?_, Or.inl ⟨f, e2, rfl, hshf, her.2⟩⟩
    rw [heqf, her.1]
    simp [List.append_assoc]

theorem matchNumber_replay (cs l r : List Char) (h : matchNumber cs = some (l, r)) :
    matchNumber l = some (l, []) :=
  matchNumber_det l (matchNumber_inv cs l r h).2

/-! String matcher: chunk structure, soundness, determinism, replay. -/

/-- One string character as matched by S_CHAR: a class escape, a unicode
escape, or a plain character. -/
inductive Chunk : List Char → Prop
  | classEsc (c : Char) : isClassEscape c = true → Chunk ['\\', c]
  | uEsc (a b c d : Char) : isHexDigit a = true → isHexDigit b = true →
      isHexDigit c = true → isHexDigit d = true → Chunk ['\\', 'u', a, b, c, d]
  | plain (c : Char) : isPlainSChar c = true → Chunk [c]

/-- A concatenation of string characters: the words of `S_CHAR*`. -/
inductive Chunks : List Char → Prop
  | nil : Chunks []
  | cons {l rest : List Char} : Chunk l → Chunks rest → Chunks (l ++ rest)

theorem matchEscapeBody_inv (cs l r : List Char) (h : matchEscapeBody cs = some (l, r)) :
    cs = l ++ r ∧ Chunk ('\\' :: l) := by
  match cs with
  | [] => cases h
  | c :: rest =>
    simp only [matchEscapeBody] at h
    by_cases hc : isClassEscape c = true
    · rw [if_pos hc, Option.some.injEq, Prod.mk.injEq] at h
      obtain ⟨rfl, rfl⟩ := h
      exact ⟨rfl, Chunk.classEsc c hc⟩
    · rw [if_neg hc] at h
      by_cases hu : (c == 'u') = true
      · rw [if_pos hu] at h
        match rest with
        | [] => cases h
        | [a] => cases h
        | [a, b] => cases h
        | [a, b, c2] => cases h
        | a :: b :: c2 :: d :: r2 =>
          simp only at h
          by_cases hh : (isHexDigit a && isHexDigit b && isHexDigit c2 && isHexDigit d) = true
          · rw [if_pos hh, Option.some.injEq, Prod.mk.injEq] at h
            obtain ⟨rfl, rfl⟩ := h
            have := Bool.and_eq_true_iff.mp hh
            have h3 := Bool.and_eq_true_iff.mp this.1
            have h4 := Bool.and_eq_true_iff.mp h3.1
            have hcu : c = 'u' := by simpa using hu
            subst hcu
            exact ⟨rfl, Chunk.uEsc a b c2 d h4.1 h4.2 h3.2 this.2⟩
          · rw [if_neg hh] at h
            cases h
      · rw [if_neg hu] at h
        cases h

theorem matchSChar_inv (cs l r : List Char) (h : matchSChar cs = some (l, r)) :
    cs = l ++ r ∧ Chunk l := by
  match cs with
  | [] => cases h
  | c :: rest =>
    simp only [matchSChar] at h
    by_cases hb : (c == '\\') = true
    · rw [if_pos hb] at h
      rcases hm : matchEscapeBody rest with - | ⟨el, er⟩ <;> simp only [hm] at h
      · cases h
      rw [Option.some.injEq, Prod.mk.injEq] at h
      obtain ⟨rfl, rfl⟩ := h
      obtain ⟨heq, hch⟩ := matchEscapeBody_inv rest el er hm
      have hcb : c = '\\' := by simpa using hb
      subst hcb
      exact ⟨by rw [List.cons_append, ← heq], hch⟩
    · rw [if_neg hb] at h
      by_cases hp : isPlainSChar c = true
      · rw [if_pos hp, Option.some.injEq, Prod.mk.injEq] at h
        obtain ⟨rfl, rfl⟩ := h
        exact ⟨rfl, Chunk.plain c hp⟩
      · rw [if_neg hp] at h
        cases h

theorem isPlainSChar_spec (c : Char) : isPlainSChar c = true ↔
    31 < c.toNat ∧ c ≠ 'b' ∧ c ≠ '"' ∧ c ≠ '\\' ∧ c ≠ '\x0d' ∧ c ≠ '\n' := by
  simp [isPlainSChar, Bool.and_eq_true, decide_eq_true_eq]
  tauto

theorem matchSChar_det (l t : List Char) (hl : Chunk l) :
    matchSChar (l ++ t) = some (l, t) := by
  cases hl with
  | classEsc c hc =>
    simp [matchSChar, matchEscapeBody, hc]
  | uEsc a b c d ha hb hc hd =>
    have h1 : isClassEscape 'u' = false := by decide
    simp [matchSChar, matchEscapeBody, h1, ha, hb, hc, hd]
  | plain c hp =>
    have hnb : (c == '\\') = false := by
      have := (isPlainSChar_spec c).mp hp
      simp [this.2.2.2.1]
    simp [matchSChar, hnb, hp]

theorem chunk_ne_nil (l : List Char) (h : Chunk l) : l ≠ [] := by
  cases h <;> simp

theorem matchSChars_sound (fuel : Nat) (cs : List Char) :
    cs = (matchSChars fuel cs).1 ++ (matchSChars fuel cs).2 ∧
      Chunks (matchSChars fuel cs).1 := by
  induction fuel generalizing cs with
  | zero => exact ⟨rfl, Chunks.nil⟩
  | succ f ih =>
    rcases hm : matchSChar cs with - | ⟨l, r⟩
    · simp only [matchSChars, hm]
      exact ⟨rfl, Chunks.nil⟩
    · obtain ⟨heq, hch⟩ := matchSChar_inv cs l r hm
      rcases hrec : matchSChars f r with ⟨l2, r2⟩
      simp only [matchSChars, hm, hrec]
      have := ih r
      rw [hrec] at this
      exact ⟨by rw [heq, this.1, List.append_assoc], Chunks.cons hch this.2⟩

theorem matchSChars_det (body t : List Char) (hb : Chunks body)
    (ht : matchSChar t = none) :
    ∀ fuel, body.length ≤ fuel → matchSChars fuel (body ++ t) = (body, t) := by
  induction hb with
  | nil =>
    intro fuel _
    cases fuel with
    | zero => simp [matchSChars]
    | succ f => simp [matchSChars, ht]
  | cons hch hrest ih =>
    rename_i l rest
    intro fuel hfuel
    have hlpos : 0 < l.length := List.length_pos.mpr (chunk_ne_nil l hch)
    cases fuel with
    | zero =>
      rw [List.length_append] at hfuel
      omega
    | succ f =>
      have hstep : matchSChar (l ++ (rest ++ t)) = some (l, rest ++ t) :=
        matchSChar_det l (rest ++ t) hch
      have hf : rest.length ≤ f := by
        rw [List.length_append] at hfuel
        omega
      simp only [List.append_assoc, matchSChars, hstep, ih f hf]

theorem matchSChar_quote (t : List Char) : matchSChar ('"' :: t) = none := by
  simp [matchSChar, isPlainSChar]

theorem matchString_inv (cs l r : List Char) (h : matchString cs = some (l, r)) :
    ∃ body, cs = '"' :: body ++ '"' :: r ∧ l = '"' :: body ++ ['"'] ∧ Chunks body := by
  match cs with
  | [] => cases h
  | c :: rest =>
    simp only [matchString] at h
    by_cases hc : (c == '"') = true
    · rw [if_pos hc] at h
      have hcq : c = '"' := by simpa using hc
      subst hcq
      rcases hms : matchSChars rest.length rest with ⟨body, rr⟩
      simp only [hms] at h
      have hs := matchSChars_sound rest.length rest
      rw [hms] at hs
      cases rr with
      | nil => exact absurd h (by simp)
      | cons q r2 =>
        by_cases hq : (q == '"') = true
        · simp only [hq, if_true] at h
          rw [Option.some.injEq, Prod.mk.injEq] at h
          obtain ⟨rfl, rfl⟩ := h
          have hqq : q = '"' := by simpa using hq
          subst hqq
          refine ⟨body, ?_, rfl, hs.2⟩
          rw [List.cons_append, ← hs.1]
        · simp only [hq, if_false] at h
          simp at h
    · rw [if_neg hc] at h
      cases h

theorem matchString_det (body t : List Char) (hb : Chunks body) :
    matchString ('"' :: body ++ '"' :: t) = some ('"' :: body ++ ['"'], t) := by
  have hfuel : body.length ≤ (body ++ '"' :: t).length := by
    rw [List.length_append]
    omega
  have hdet := matchSChars_det body ('"' :: t) hb (matchSChar_quote t)
      (body ++ '"' :: t).length hfuel
  simp only [List.cons_append, matchString, beq_self_eq_true, if_true, hdet]

theorem matchString_replay (cs l r : List Char) (h : matchString cs = some (l, r)) :
    matchString l = some (l, []) := by
  obtain ⟨body, -, rfl, hch⟩ := matchString_inv cs l r h
  have := matchString_det body [] hch
  simpa using this

/-! Positions of line feeds and of the letter b inside matched string bodies. -/

theorem chunks_lf (body : List Char) (h : Chunks body) :
    ∀ i, body.get? i = some '\n' → ∃ j, i = j + 1 ∧ body.get? j = some '\\' := by
  induction h with
  | nil => intro i hi; cases i <;> cases hi
  | cons hch hrest ih =>
    rename_i l rest
    intro i hi
    cases hch with
    | classEsc c hc =>
      simp only [List.cons_append] at hi ⊢
      match i with
      | 0 =>
        simp only [List.get?_cons_zero, Option.some.injEq] at hi
        exact absurd hi (by decide)
      | 1 => exact ⟨0, rfl, rfl⟩
      | n + 2 =>
        simp only [List.get?_cons_succ] at hi
        obtain ⟨j, rfl, hj⟩ := ih n hi
        exact ⟨j + 2, rfl, by simpa using hj⟩
    | uEsc a b c d ha hb hc hd =>
      simp only [List.cons_append] at hi ⊢
      match i with
      | 0 =>
        simp only [List.get?_cons_zero, Option.some.injEq] at hi
        exact absurd hi (by decide)
      | 1 =>
        simp only [List.get?_cons_succ, List.get?_cons_zero, Option.some.injEq] at hi
        exact absurd hi (by decide)
      | 2 =>
        simp only [List.get?_cons_succ, List.get?_cons_zero, Option.some.injEq] at hi
        subst hi
        exact absurd ha (by decide)
      | 3 =>
        simp only [List.get?_cons_succ, List.get?_cons_zero, Option.some.injEq] at hi
        subst hi
        exact absurd hb (by decide)
      | 4 =>
        simp only [List.get?_cons_succ, List.get?_cons_zero, Option.some.injEq] at hi
        subst hi
        exact absurd hc (by decide)
      | 5 =>
        simp only [List.get?_cons_succ, List.get?_cons_zero, Option.some.injEq] at hi
        subst hi
        exact absurd hd (by decide)
      | n + 6 =>
        simp only [List.get?_cons_succ] at hi
        obtain ⟨j, rfl, hj⟩ := ih n hi
        exact ⟨j + 6, rfl, by simpa using hj⟩
    | plain c hp =>
      simp only [List.cons_append] at hi ⊢
      match i with
      | 0 =>
        simp only [List.get?_cons_zero, Option.some.injEq] at hi
        subst hi
        have := (isPlainSChar_spec _).mp hp
        exact absurd rfl this.2.2.2.2.2
      | n + 1 =>
        simp only [List.get?_cons_succ] at hi
        obtain ⟨j, rfl, hj⟩ := ih n hi
        exact ⟨j + 1, rfl, by simpa using hj⟩

theorem chunks_b (body : List Char) (h : Chunks body) :
    ∀ i, body.get? i = some 'b' → ∃ j, j < i ∧ i ≤ j + 5 ∧ body.get? j = some '\\' := by
  induction h with
  | nil => intro i hi; cases i <;> cases hi
  | cons hch hrest ih =>
    rename_i l rest
    intro i hi
    cases hch with
    | classEsc c hc =>
      simp only [List.cons_append] at hi ⊢
      match i with
      | 0 =>
        simp only [List.get?_cons_zero, Option.some.injEq] at hi
        exact absurd hi (by decide)
      | 1 => exact ⟨0, by omega, by omega, rfl⟩
      | n + 2 =>
        simp only [List.get?_cons_succ] at hi
        obtain ⟨j, hj1, hj2, hj⟩ := ih n hi
        exact ⟨j + 2, by omega, by omega, by simpa using hj⟩
    | uEsc a b c d ha hb hc hd =>
      simp only [List.cons_append] at hi ⊢
      match i with
      | 0 =>
        simp only [List.get?_cons_zero, Option.some.injEq] at hi
        exact absurd hi (by decide)
      | 1 =>
        simp only [List.get?_cons_succ, List.get?_cons_zero, Option.some.injEq] at hi
        exact absurd hi (by decide)
      | 2 => exact ⟨0, by omega, by omega, rfl⟩
      | 3 => exact ⟨0, by omega, by omega, rfl⟩
      | 4 => exact ⟨0, by omega, by omega, rfl⟩
      | 5 => exact ⟨0, by omega, by omega, rfl⟩
      | n + 6 =>
        simp only [List.get?_cons_succ] at hi
        obtain ⟨j, hj1, hj2, hj⟩ := ih n hi
        exact ⟨j + 6, by omega, by omega, by simpa using hj⟩
    | plain c hp =>
      simp only [List.cons_append] at hi ⊢
      match i with
      | 0 =>
        simp only [List.get?_cons_zero, Option.some.injEq] at hi
        subst hi
        have := (isPlainSChar_spec _).mp hp
        exact absurd rfl this.2.1
      | n + 1 =>
        simp only [List.get?_cons_succ] at hi
        obtain ⟨j, hj1, hj2, hj⟩ := ih n hi
        exact ⟨j + 1, by omega, by omega, by simpa using hj⟩

/-! The literal matchers. -/

theorem matchLit_inv (lit cs l r : List Char) (h : matchLit lit cs = some (l, r)) :
    l = lit ∧ cs = lit ++ r := by
  induction lit generalizing cs l r with
  | nil =>
    simp only [matchLit, Option.some.injEq, Prod.mk.injEq] at h
    obtain ⟨rfl, rfl⟩ := h
    exact ⟨rfl, rfl⟩
  | cons x xs ih =>
    match cs with
    | [] => cases h
    | c :: cs2 =>
      simp only [matchLit] at h
      by_cases hc : (c == x) = true
      · rw [if_pos hc] at h
        rcases hm : matchLit xs cs2 with - | ⟨a, b⟩ <;> simp only [hm] at h
        · cases h
        rw [Option.some.injEq, Prod.mk.injEq] at h
        obtain ⟨rfl, rfl⟩ := h
        obtain ⟨rfl, rfl⟩ := ih cs2 a b hm
        have : c = x := by simpa using hc
        subst this
        exact ⟨rfl, rfl⟩
      · rw [if_neg hc] at h
        cases h

theorem matchBool_inv (cs l r : List Char) (h : matchBool cs = some (l, r)) :
    (l = ['t', 'r', 'u', 'e'] ∨ l = ['f', 'a', 'l', 's', 'e']) ∧ cs = l ++ r := by
  unfold matchBool at h
  rcases hm : matchLit (['t', 'r', 'u', 'e']) cs with - | ⟨a, b⟩ <;>
    simp only [hm] at h
  · obtain ⟨rfl, rfl⟩ := matchLit_inv _ cs l r h
    exact ⟨Or.inr rfl, rfl⟩
  · rw [Option.some.injEq, Prod.mk.injEq] at h
    obtain ⟨rfl, rfl⟩ := h
    obtain ⟨rfl, rfl⟩ := matchLit_inv _ cs a b hm
    exact ⟨Or.inl rfl, rfl⟩

theorem numShape_head (l : List Char) (h : NumShape l) :
    ∃ c cs, l = c :: cs ∧ (c = '-' ∨ c = '.' ∨ isDigit c = true) := by
  rcases h with ⟨lf, le, rfl, ⟨ds, rfl, -⟩, -⟩ | ⟨li, lf, le, rfl, hi, -, -⟩
  · exact ⟨'.', ds ++ le, rfl, Or.inr (Or.inl rfl)⟩
  · rcases hi with hcore | ⟨m, rfl, hm⟩
    · obtain ⟨c, cs, rfl, hc⟩ := intCoreShape_head _ hcore
      exact ⟨c, cs ++ lf ++ le, by simp, Or.inr (Or.inr hc)⟩
    · exact ⟨'-', m ++ lf ++ le, by simp, Or.inl rfl⟩

/-! Lexer level facts: token bounds and the replayability invariant. -/

/-- Invariant of every token the lexer can produce: its stored lexeme is
replayable by the matcher of its kind, consuming the lexeme exactly. -/
def TokenOK (t : Token) : Prop :=
  (t.type = TOKEN_STRING → matchString t.value = some (t.value, [])) ∧
  (t.type = TOKEN_NUMBER → matchNumber t.value = some (t.value, [])) ∧
  (t.type = TOKEN_BOOLEAN →
    t.value = ['t', 'r', 'u', 'e'] ∨ t.value = ['f', 'a', 'l', 's', 'e'])

theorem skipWhitespace_le (src : List Char) (index : Nat) :
    index ≤ skipWhitespace src index :=
  Nat.le_add_right _ _

theorem lex_end (src : List Char) (index : Nat) (h : src.length ≤ index) :
    lex src index = .error (.thrown ("Unexpected token \x27undefined\x27")) := by
  have hdrop : src.drop index = [] := List.drop_eq_nil_of_le h
  have hws : skipWhitespace src index = index := by
    simp [skipWhitespace, hdrop, wsCount]
  have hdrop2 : src.drop (skipWhitespace src index) = [] := by rw [hws]; exact hdrop
  have hget : src.get? (skipWhitespace src index) = none := by
    rw [hws]
    exact List.get?_eq_none.mpr h
  simp only [lex, hdrop2, matchString, matchNumber, matchFrac, matchInt, matchPunc,
    matchBool, matchNull, matchLit, charAtStr, hget]
  rfl

theorem lex_ok_lt (src : List Char) (index : Nat) (t : Token) (idx2 : Nat)
    (h : lex src index = .ok (t, idx2)) : index < src.length := by
  by_contra hlt
  rw [lex_end src index (by omega)] at h
  cases h

theorem lex_spec (src : List Char) (index : Nat) (t : Token) (idx2 : Nat)
    (h : lex src index = .ok (t, idx2)) :
    index ≤ t.start ∧ t.start ≤ t.endPos ∧ t.endPos ≤ idx2 ∧ TokenOK t := by
  have hIle : index ≤ skipWhitespace src index := skipWhitespace_le src index
  rcases hS : matchString (src.drop (skipWhitespace src index)) with - | ⟨l, r⟩
  · rcases hN : matchNumber (src.drop (skipWhitespace src index)) with - | ⟨l, r⟩
    · rcases hP : matchPunc (src.drop (skipWhitespace src index)) with - | ⟨l, r⟩
      · rcases hB : matchBool (src.drop (skipWhitespace src index)) with - | ⟨l, r⟩
        · rcases hU : matchNull (src.drop (skipWhitespace src index)) with - | ⟨l, r⟩
          · simp only [lex, hS, hN, hP, hB, hU] at h
            cases h
          · simp only [lex, hS, hN, hP, hB, hU, lexFinish, mkToken,
              Except.ok.injEq, Prod.mk.injEq] at h
            obtain ⟨rfl, rfl⟩ := h
            exact ⟨hIle, Nat.le_add_right _ _, skipWhitespace_le _ _,
              fun hty => absurd hty (show ¬TOKEN_NULL = TOKEN_STRING by decide),
              fun hty => absurd hty (show ¬TOKEN_NULL = TOKEN_NUMBER by decide),
              fun hty => absurd hty (show ¬TOKEN_NULL = TOKEN_BOOLEAN by decide)⟩
        · simp only [lex, hS, hN, hP, hB, lexFinish, mkToken,
            Except.ok.injEq, Prod.mk.injEq] at h
          obtain ⟨rfl, rfl⟩ := h
          exact ⟨hIle, Nat.le_add_right _ _, skipWhitespace_le _ _,
            fun hty => absurd hty (show ¬TOKEN_BOOLEAN = TOKEN_STRING by decide),
            fun hty => absurd hty (show ¬TOKEN_BOOLEAN = TOKEN_NUMBER by decide),
            fun _ => (matchBool_inv _ l r hB).1⟩
      · simp only [lex, hS, hN, hP, lexFinish, mkToken,
          Except.ok.injEq, Prod.mk.injEq] at h
        obtain ⟨rfl, rfl⟩ := h
        exact ⟨hIle, Nat.le_add_right _ _, skipWhitespace_le _ _,
          fun hty => absurd hty (show ¬TOKEN_PUNCTUATOR = TOKEN_STRING by decide),
          fun hty => absurd hty (show ¬TOKEN_PUNCTUATOR = TOKEN_NUMBER by decide),
          fun hty => absurd hty (show ¬TOKEN_PUNCTUATOR = TOKEN_BOOLEAN by decide)⟩
    · simp only [lex, hS, hN, lexFinish, mkToken, Except.ok.injEq, Prod.mk.injEq] at h
      obtain ⟨rfl, rfl⟩ := h
      exact ⟨hIle, Nat.le_add_right _ _, skipWhitespace_le _ _,
        fun hty => absurd hty (show ¬TOKEN_NUMBER = TOKEN_STRING by decide),
        fun _ => matchNumber_replay _ l r hN,
        fun hty => absurd hty (show ¬TOKEN_NUMBER = TOKEN_BOOLEAN by decide)⟩
  · simp only [lex, hS, lexFinish, mkToken, Except.ok.injEq, Prod.mk.injEq] at h
    obtain ⟨rfl, rfl⟩ := h
    exact ⟨hIle, Nat.le_add_right _ _, skipWhitespace_le _ _,
      fun _ => matchString_replay _ l r hS,
      fun hty => absurd hty (show ¬TOKEN_STRING = TOKEN_NUMBER by decide),
      fun hty => absurd hty (show ¬TOKEN_STRING = TOKEN_BOOLEAN by decide)⟩

/-! Lexer state invariants: replayable stash, ordered stash, frontier. -/

/-- Every stashed token is replayable. -/
def StashOK (st : LexerState) : Prop := ∀ t ∈ st.stash, TokenOK t

/-- The stash is position ordered: each token spans forward, ends before the
next stashed token starts, and the last one ends before the read index. -/
def TokOrd : List Token → Nat → Prop
  | [], _ => True
  | t :: ts, idx =>
    t.start ≤ t.endPos ∧
    t.endPos ≤ (match ts with | [] => idx | u :: _ => u.start) ∧
    TokOrd ts idx

/-- Well formed lexer state. -/
def LexWF (st : LexerState) : Prop := TokOrd st.stash st.index

/-- Combined precondition threaded through the parser. -/
def Pre (st : LexerState) : Prop := StashOK st ∧ LexWF st

/-- Source position of the next token the parser will see: the start of the
oldest stashed token, or the read index when the stash is empty. -/
def frontier (st : LexerState) : Nat :=
  match st.stash with
  | [] => st.index
  | t :: _ => t.start

theorem tokOrd_append (s : List Token) (idx : Nat) (a : Token) (idx2 : Nat)
    (h : TokOrd s idx) (h1 : idx ≤ a.start) (h2 : a.start ≤ a.endPos)
    (h3 : a.endPos ≤ idx2) : TokOrd (s ++ [a]) idx2 := by
  induction s with
  | nil => exact ⟨h2, h3, trivial⟩
  | cons t ts ih =>
    obtain ⟨ha, hb, hc⟩ := h
    refine ⟨ha, ?_, ih hc⟩
    cases ts with
    | nil => simpa using le_trans hb h1
    | cons u us => simpa using hb

theorem tokOrd_tail (t : Token) (ts : List Token) (idx : Nat)
    (h : TokOrd (t :: ts) idx) : TokOrd ts idx := h.2.2

/-- Case analysis of a successful `peek`. -/
theorem peek_cases (st : LexerState) (o : Option Token) (st2 : LexerState)
    (h : peek st = .ok (o, st2)) :
    (st.source.length ≤ st.index ∧ st2 = st ∧ o = st.stash.head?) ∨
    (∃ t idx2, st.index < st.source.length ∧ lex st.source st.index = .ok (t, idx2) ∧
      st2 = ⟨st.source, idx2, st.stash ++ [t]⟩ ∧ o = (st.stash ++ [t]).head?) := by
  obtain ⟨src, index, stash⟩ := st
  by_cases hend : src.length ≤ index
  · simp only [peek, lookahead, fillLoop, hend, if_true, Except.ok.injEq,
      Prod.mk.injEq] at h
    obtain ⟨rfl, rfl⟩ := h
    exact Or.inl ⟨hend, rfl, (List.get?_zero _).symm ▸ rfl⟩
  · rcases hlex : lex src index with e | ⟨t, idx2⟩ <;>
      simp only [peek, lookahead, fillLoop, hend, if_false, hlex] at h
    · cases h
    · rw [Except.ok.injEq, Prod.mk.injEq] at h
      obtain ⟨rfl, rfl⟩ := h
      refine Or.inr ⟨t, idx2, lt_of_not_le hend, rfl, rfl, ?_⟩
      exact (List.get?_zero _).symm ▸ rfl

/-- Case analysis of a successful `next`. -/
theorem next_cases (st : LexerState) (r : NextResult) (st2 : LexerState)
    (h : next st = .ok (r, st2)) :
    (∃ t rest, st.stash = t :: rest ∧ r = .tok t ∧
      st2 = ⟨st.source, st.index, rest⟩) ∨
    (st.stash = [] ∧ st.source.length ≤ st.index ∧ r = .done ∧ st2 = st) ∨
    (∃ t idx2, st.stash = [] ∧ st.index < st.source.length ∧
      lex st.source st.index = .ok (t, idx2) ∧ r = .tok t ∧
      st2 = ⟨st.source, idx2, []⟩) := by
  obtain ⟨src, index, stash⟩ := st
  cases stash with
  | cons t rest =>
    simp only [next, Except.ok.injEq, Prod.mk.injEq] at h
    obtain ⟨rfl, rfl⟩ := h
    exact Or.inl ⟨t, rest, rfl, rfl, rfl⟩
  | nil =>
    by_cases hend : src.length ≤ index
    · simp only [next, hend, if_true, Except.ok.injEq, Prod.mk.injEq] at h
      obtain ⟨rfl, rfl⟩ := h
      exact Or.inr (Or.inl ⟨rfl, hend, rfl, rfl⟩)
    · rcases hlex : lex src index with e | ⟨t, idx2⟩ <;>
        simp only [next, hend, if_false, hlex] at h
      · cases h
      · rw [Except.ok.injEq, Prod.mk.injEq] at h
        obtain ⟨rfl, rfl⟩ := h
        exact Or.inr (Or.inr ⟨t, idx2, rfl, lt_of_not_le hend, rfl, rfl, rfl⟩)

/-- Everything the span and leaf invariants need from a successful `peek`. -/
theorem peek_spec (st : LexerState) (o : Option Token) (st2 : LexerState)
    (hpre : Pre st) (h : peek st = .ok (o, st2)) :
    Pre st2 ∧ frontier st ≤ frontier st2 ∧ o = st2.stash.head? ∧
      (∀ t, o = some t → frontier st2 = t.start ∧ t.start ≤ t.endPos ∧ TokenOK t) := by
  obtain ⟨src, index, stash⟩ := st
  obtain ⟨hstash, hwf⟩ := hpre
  rcases peek_cases _ o st2 h with ⟨hend, rfl, ho⟩ | ⟨t, idx2, hlt, hlex, rfl, ho⟩
  · refine ⟨⟨hstash, hwf⟩, le_refl _, ho, ?_⟩
    intro u hu
    rw [ho] at hu
    cases stash with
    | nil => cases hu
    | cons v vs =>
      simp only [List.head?_cons, Option.some.injEq] at hu
      subst hu
      exact ⟨rfl, hwf.1, hstash v (by simp)⟩
  · obtain ⟨hb1, hb2, hb3, htok⟩ := lex_spec _ _ _ _ hlex
    refine ⟨⟨?_, ?_⟩, ?_, ho, ?_⟩
    · intro u hu
      rcases List.mem_append.mp hu with hu2 | hu2
      · exact hstash u hu2
      · rw [List.mem_singleton] at hu2
        subst hu2
        exact htok
    · exact tokOrd_append _ _ _ _ hwf hb1 hb2 hb3
    · cases stash with
      | nil => simpa [frontier] using hb1
      | cons v vs => simp [frontier]
    · intro u hu
      rw [ho] at hu
      cases stash with
      | nil =>
        simp only [List.nil_append, List.head?_cons, Option.some.injEq] at hu
        subst hu
        exact ⟨by simp [frontier], hb2, htok⟩
      | cons v vs =>
        simp only [List.cons_append, List.head?_cons, Option.some.injEq] at hu
        subst hu
        exact ⟨by simp [frontier], hwf.1, hstash v (by simp)⟩

/-- Everything the span and leaf invariants need from a successful token
returning `next`. -/
theorem next_spec (st : LexerState) (t : Token) (st2 : LexerState)
    (hpre : Pre st) (h : next st = .ok (.tok t, st2)) :
    Pre st2 ∧ TokenOK t ∧ frontier st ≤ t.start ∧ t.start ≤ t.endPos ∧
      t.endPos ≤ frontier st2 := by
  obtain ⟨src, index, stash⟩ := st
  obtain ⟨hstash, hwf⟩ := hpre
  rcases next_cases _ (.tok t) st2 h with ⟨u, rest, hst, hu, rfl⟩ |
    ⟨-, -, hdone, -⟩ | ⟨u, idx2, hst, hlt, hlex, hu, rfl⟩
  · rw [NextResult.tok.injEq] at hu
    subst hu
    subst hst
    refine ⟨⟨fun v hv => hstash v (by simp [hv]), hwf.2.2⟩,
      hstash t (by simp), le_of_eq rfl, hwf.1, ?_⟩
    cases rest with
    | nil => simpa [frontier] using hwf.2.1
    | cons w ws => simpa [frontier] using hwf.2.1
  · cases hdone
  · rw [NextResult.tok.injEq] at hu
    subst hu
    subst hst
    obtain ⟨hb1, hb2, hb3, htok⟩ := lex_spec _ _ _ _ hlex
    exact ⟨⟨fun v hv => absurd hv (by simp), trivial⟩, htok, hb1, hb2, hb3⟩

/-- Everything needed from a successful `is`: precondition and frontier are
maintained and the stash head is preserved. -/
theorem is_spec (st : LexerState) (v : List Char) (b : Bool) (st2 : LexerState)
    (hpre : Pre st) (h : is st v = .ok (b, st2)) :
    Pre st2 ∧ frontier st ≤ frontier st2 ∧
      (∀ u, st.stash.head? = some u → st2.stash.head? = some u ∧
        frontier st2 = u.start) := by
  unfold is at h
  rcases hp : peek st with e | ⟨o, st3⟩ <;> rw [hp] at h
  · cases h
  · obtain ⟨hpre2, hfr, ho, hsome⟩ := peek_spec st o st3 hpre hp
    cases o with
    | none => simp only at h; cases h
    | some u =>
      simp only [Except.ok.injEq, Prod.mk.injEq] at h
      obtain ⟨rfl, rfl⟩ := h
      refine ⟨hpre2, hfr, ?_⟩
      intro w hw
      rcases peek_cases st (some u) st3 hp with ⟨-, rfl, ho2⟩ |
        ⟨x, idx2, -, -, hst2, ho2⟩
      · refine ⟨hw, ?_⟩
        rw [hw] at ho2
        rw [Option.some.injEq] at ho2
        subst ho2
        exact (hsome u rfl).1
      · obtain ⟨src, index, stash⟩ := st
        cases stash with
        | nil => cases hw
        | cons y ys =>
          simp only [List.head?_cons, Option.some.injEq] at hw
          subst hw
          subst hst2
          constructor
          · simp
          · have h2 := (hsome u rfl).1
            simp only [List.cons_append, List.head?_cons, Option.some.injEq] at ho2
            subst ho2
            simp [frontier]

/-- Everything needed from a successful `ensure`. -/
theorem ensure_spec (st : LexerState) (expected : List (List Char)) (t : Token)
    (st2 : LexerState) (hpre : Pre st) (h : ensure st expected = .ok (t, st2)) :
    Pre st2 ∧ TokenOK t ∧ frontier st ≤ t.start ∧ t.start ≤ t.endPos ∧
      t.endPos ≤ frontier st2 := by
  unfold ensure at h
  rcases hn : next st with e | ⟨r, st3⟩ <;> rw [hn] at h
  · cases h
  · cases r with
    | done => simp only at h; cases h
    | tok u =>
      simp only at h
      by_cases hfound : (expected.any fun x => decide (u.value = x)) = true
      · rw [if_pos hfound, Except.ok.injEq, Prod.mk.injEq] at h
        obtain ⟨rfl, rfl⟩ := h
        exact next_spec st u st3 hpre hn
      · rw [if_neg hfound] at h
        cases h

/-- Everything needed from a successful `ensureType`. -/
theorem ensureType_spec (st : LexerState) (expected : List String) (t : Token)
    (st2 : LexerState) (hpre : Pre st) (h : ensureType st expected = .ok (t, st2)) :
    Pre st2 ∧ TokenOK t ∧ frontier st ≤ t.start ∧ t.start ≤ t.endPos ∧
      t.endPos ≤ frontier st2 := by
  unfold ensureType at h
  rcases hn : next st with e | ⟨r, st3⟩ <;> rw [hn] at h
  · cases h
  · cases r with
    | done => simp only at h; cases h
    | tok u =>
      simp only at h
      by_cases hfound : (expected.any fun x => decide (u.type = x)) = true
      · rw [if_pos hfound, Except.ok.injEq, Prod.mk.injEq] at h
        obtain ⟨rfl, rfl⟩ := h
        exact next_spec st u st3 hpre hn
      · rw [if_neg hfound] at h
        cases h

/-! Node level invariants proved of every successful parse. -/

/-- Occurrence of a node inside a parse result: the AST retains children only
through array elements (object property values are dropped by the Property
constructor). -/
inductive OccursIn : Node → Node → Prop
  | refl (n : Node) : OccursIn n n
  | inArray {m x : Node} {es : List Node} {s e : Nat} :
      OccursIn m x → x ∈ es → OccursIn m (.arrayLiteral es s e)

/-- Leaf replayability: the lexeme of every string, number and boolean leaf is
replayable by the matcher of its kind. -/
def LeafOK (m : Node) : Prop :=
  (∀ v s e, m = .stringLiteral v s e → matchString v = some (v, [])) ∧
  (∀ v s e, m = .numericLiteral v s e → matchNumber v = some (v, [])) ∧
  (∀ v s e, m = .booleanLiteral v s e →
    v = ['t', 'r', 'u', 'e'] ∨ v = ['f', 'a', 'l', 's', 'e'])

/-- Local span sanity of one node: a coherent own span (except the NullLiteral,
whose end is never assigned), and enclosure of the direct children. -/
def localSpanOK : Node → Prop
  | .objectLiteral ps s e => s ≤ e ∧ ∀ p ∈ ps, s ≤ p.start ∧
      (∀ q, p.endPos = some q → p.start ≤ q ∧ q ≤ e)
  | .arrayLiteral es s e => s ≤ e ∧ ∀ x ∈ es, s ≤ nodeStart x ∧
      nodeStart x ≤ nodeEndB x ∧ nodeEndB x ≤ e
  | .stringLiteral _ s e => s ≤ e
  | .numericLiteral _ s e => s ≤ e
  | .booleanLiteral _ s e => s ≤ e
  | .nullLiteral _ e => e = none

/-- Every property of an object node starts at its key token. -/
def propsStartOK : Node → Prop
  | .objectLiteral ps _ _ => ∀ p ∈ ps, p.start = p.key.start
  | _ => True

/-- All node invariants together. -/
def Good (m : Node) : Prop := LeafOK m ∧ localSpanOK m ∧ propsStartOK m

/-- Facts carried per accumulated property in the object loop. -/
def PropFact (lo : Nat) (p : Property) (hi : Nat) : Prop :=
  p.start = p.key.start ∧ lo ≤ p.start ∧
    ∀ q, p.endPos = some q → p.start ≤ q ∧ q ≤ hi

/-- Facts carried per accumulated element in the array loop. -/
def ElemFact (lo : Nat) (x : Node) (hi : Nat) : Prop :=
  (∀ m, OccursIn m x → Good m) ∧ lo ≤ nodeStart x ∧
    nodeStart x ≤ nodeEndB x ∧ nodeEndB x ≤ hi

/-- Postcondition of a successful `parseValue` (and of the literal parsers). -/
def PostV (st : LexerState) (n : Node) (st2 : LexerState) : Prop :=
  Pre st2 ∧ frontier st ≤ nodeStart n ∧ nodeStart n ≤ nodeEndB n ∧
    nodeEndB n ≤ frontier st2 ∧ (∀ m, OccursIn m n → Good m)

theorem propFact_mono (lo : Nat) (p : Property) (hi hi2 : Nat)
    (h : PropFact lo p hi) (hle : hi ≤ hi2) : PropFact lo p hi2 :=
  ⟨h.1, h.2.1, fun q hq => ⟨(h.2.2 q hq).1, le_trans (h.2.2 q hq).2 hle⟩⟩

theorem elemFact_mono (lo : Nat) (x : Node) (hi hi2 : Nat)
    (h : ElemFact lo x hi) (hle : hi ≤ hi2) : ElemFact lo x hi2 :=
  ⟨h.1, h.2.1, h.2.2.1, le_trans h.2.2.2 hle⟩

theorem occursIn_object (m : Node) (ps : List Property) (s e : Nat)
    (h : OccursIn m (.objectLiteral ps s e)) : m = .objectLiteral ps s e := by
  cases h
  rfl

theorem occursIn_string (m : Node) (v : List Char) (s e : Nat)
    (h : OccursIn m (.stringLiteral v s e)) : m = .stringLiteral v s e := by
  cases h
  rfl

theorem occursIn_numeric (m : Node) (v : List Char) (s e : Nat)
    (h : OccursIn m (.numericLiteral v s e)) : m = .numericLiteral v s e := by
  cases h
  rfl

theorem occursIn_boolean (m : Node) (v : List Char) (s e : Nat)
    (h : OccursIn m (.booleanLiteral v s e)) : m = .booleanLiteral v s e := by
  cases h
  rfl

theorem occursIn_null (m : Node) (s : Nat) (e : Option Nat)
    (h : OccursIn m (.nullLiteral s e)) : m = .nullLiteral s e := by
  cases h
  rfl

theorem occursIn_array (m : Node) (es : List Node) (s e : Nat)
    (h : OccursIn m (.arrayLiteral es s e)) :
    m = .arrayLiteral es s e ∨ ∃ x ∈ es, OccursIn m x := by
  cases h with
  | refl => exact Or.inl rfl
  | inArray hocc hmem => exact Or.inr ⟨_, hmem, hocc⟩

theorem nodeEndB_of_nodeEnd (x : Node) (q : Nat) (h : nodeEnd x = some q) :
    nodeEndB x = q := by
  rw [nodeEndB, h]
  rfl

theorem postV_mono (st0 st : LexerState) (n : Node) (st2 : LexerState)
    (hle : frontier st0 ≤ frontier st) (hpost : PostV st n st2) : PostV st0 n st2 :=
  ⟨hpost.1, le_trans hle hpost.2.1, hpost.2.2.1, hpost.2.2.2.1, hpost.2.2.2.2⟩

theorem next_head (st : LexerState) (r : NextResult) (st2 : LexerState) (u : Token)
    (hhead : st.stash.head? = some u) (h : next st = .ok (r, st2)) :
    next st = .ok (.tok u, st2) := by
  rcases next_cases st r st2 h with ⟨t, rest, hst, rfl, -⟩ | ⟨hst, -, -, -⟩ |
    ⟨t, idx2, hst, -, -, rfl, -⟩
  · rw [hst] at hhead
    simp only [List.head?_cons, Option.some.injEq] at hhead
    subst hhead
    exact h
  · rw [hst] at hhead
    cases hhead
  · rw [hst] at hhead
    cases hhead

theorem good_stringLiteral (v : List Char) (s e : Nat)
    (hv : matchString v = some (v, [])) (hse : s ≤ e) :
    Good (.stringLiteral v s e) := by
  refine ⟨⟨?_, ?_, ?_⟩, hse, trivial⟩
  · intro v2 s2 e2 heq
    injection heq with h1 h2 h3
    subst h1
    exact hv
  · intro v2 s2 e2 heq
    exact Node.noConfusion heq
  · intro v2 s2 e2 heq
    exact Node.noConfusion heq

theorem good_numericLiteral (v : List Char) (s e : Nat)
    (hv : matchNumber v = some (v, [])) (hse : s ≤ e) :
    Good (.numericLiteral v s e) := by
  refine ⟨⟨?_, ?_, ?_⟩, hse, trivial⟩
  · intro v2 s2 e2 heq
    exact Node.noConfusion heq
  · intro v2 s2 e2 heq
    injection heq with h1 h2 h3
    subst h1
    exact hv
  · intro v2 s2 e2 heq
    exact Node.noConfusion heq

theorem good_booleanLiteral (v : List Char) (s e : Nat)
    (hv : v = ['t', 'r', 'u', 'e'] ∨ v = ['f', 'a', 'l', 's', 'e']) (hse : s ≤ e) :
    Good (.booleanLiteral v s e) := by
  refine ⟨⟨?_, ?_, ?_⟩, hse, trivial⟩
  · intro v2 s2 e2 heq
    exact Node.noConfusion heq
  · intro v2 s2 e2 heq
    exact Node.noConfusion heq
  · intro v2 s2 e2 heq
    injection heq with h1 h2 h3
    subst h1
    exact hv

theorem good_nullLiteral (s : Nat) : Good (.nullLiteral s none) := by
  refine ⟨⟨?_, ?_, ?_⟩, rfl, trivial⟩ <;>
    (intro v2 s2 e2 heq; exact Node.noConfusion heq)

theorem leaf_post (st st3 st4 : LexerState) (token : Token) (r4 : NextResult)
    (n0 : Node) (hpre3 : Pre st3) (hfr : frontier st ≤ token.start)
    (hhead3 : st3.stash.head? = some token)
    (hnx : next st3 = .ok (r4, st4))
    (hstart : nodeStart n0 = token.start)
    (hendB : nodeEndB n0 = token.endPos ∨ nodeEndB n0 = token.start)
    (hgood : ∀ m, OccursIn m n0 → Good m) :
    PostV st n0 st4 := by
  have hnx2 := next_head st3 r4 st4 token hhead3 hnx
  obtain ⟨hpre4, -, -, hses, hend4⟩ := next_spec st3 token st4 hpre3 hnx2
  refine ⟨hpre4, ?_, ?_, ?_, hgood⟩
  · rw [hstart]
    exact hfr
  · rcases hendB with he | he
    · rw [hstart, he]
      exact hses
    · rw [hstart, he]
  · rcases hendB with he | he
    · rw [he]
      exact hend4
    · rw [he]
      exact le_trans hses hend4

/-- Master invariant of the recursive descent parser, proved simultaneously
for the five mutually recursive parsing functions by induction on fuel. -/
theorem parserInv : ∀ fuel : Nat,
    (∀ st n st2, Pre st → parseValue fuel st = .ok (n, st2) → PostV st n st2) ∧
    (∀ st n st2, Pre st → parseObjectLiteral fuel st = .ok (n, st2) → PostV st n st2) ∧
    (∀ lo st acc out st2, Pre st → lo ≤ frontier st →
      (∀ p ∈ acc, PropFact lo p (frontier st)) →
      parseObjectLoop fuel st acc = .ok (out, st2) →
      Pre st2 ∧ frontier st ≤ frontier st2 ∧ ∀ p ∈ out, PropFact lo p (frontier st2)) ∧
    (∀ st n st2, Pre st → parseArrayLiteral fuel st = .ok (n, st2) → PostV st n st2) ∧
    (∀ lo st acc out st2, Pre st → lo ≤ frontier st →
      (∀ x ∈ acc, ElemFact lo x (frontier st)) →
      parseArrayLoop fuel st acc = .ok (out, st2) →
      Pre st2 ∧ frontier st ≤ frontier st2 ∧ ∀ x ∈ out, ElemFact lo x (frontier st2)) := by
  intro fuel
  induction fuel with
  | zero =>
    refine ⟨?_, ?_, ?_, ?_, ?_⟩
    · rintro st n st2 - h
      cases h
    · rintro st n st2 - h
      cases h
    · rintro lo st acc out st2 - - - h
      cases h
    · rintro st n st2 - h
      cases h
    · rintro lo st acc out st2 - - - h
      cases h
  | succ fuel ih =>
    obtain ⟨ihV, ihOL, ihOLoop, ihAL, ihALoop⟩ := ih
    refine ⟨?_, ?_, ?_, ?_, ?_⟩
    -- parseValue
    · intro st n st2 hpre h
      rcases hp : peek st with e | ⟨o, st1⟩
      · simp only [parseValue, hp] at h
        cases h
      cases o with
      | none =>
        simp only [parseValue, hp] at h
        cases h
      | some token =>
        simp only [parseValue, hp] at h
        obtain ⟨hpre1, hfr1, ho1, hsome1⟩ := peek_spec st (some token) st1 hpre hp
        obtain ⟨hfr1tok, hses, htok⟩ := hsome1 token rfl
        have hfrtok : frontier st ≤ token.start := by
          rw [← hfr1tok]
          exact hfr1
        rcases hi1 : is st1 lbraceV with e | ⟨b1, st1b⟩ <;> simp only [hi1] at h
        · cases h
        obtain ⟨hpre2, hfr2, hhead2⟩ := is_spec st1 lbraceV b1 st1b hpre1 hi1
        have hh1b := hhead2 token ho1.symm
        cases b1 with
        | true =>
          rw [if_pos rfl] at h
          exact postV_mono st st1b n st2 (by rw [hh1b.2, ← hfr1tok]; exact hfr1)
            (ihOL st1b n st2 hpre2 h)
        | false =>
          rw [if_neg (by simp)] at h
          rcases hi2 : is st1b lbrackV with e | ⟨b2, st2b⟩ <;> simp only [hi2] at h
          · cases h
          obtain ⟨hpre3, hfr3, hhead3⟩ := is_spec st1b lbrackV b2 st2b hpre2 hi2
          have hh2b := hhead3 token hh1b.1
          cases b2 with
          | true =>
            rw [if_pos rfl] at h
            exact postV_mono st st2b n st2 (by rw [hh2b.2, ← hfr1tok]; exact hfr1)
              (ihAL st2b n st2 hpre3 h)
          | false =>
            rw [if_neg (by simp)] at h
            by_cases ht1 : token.type = TOKEN_BOOLEAN
            · rw [if_pos ht1] at h
              rcases hnx : next st2b with e | ⟨r4, st4⟩ <;> simp only [hnx] at h
              · cases h
              rw [Except.ok.injEq, Prod.mk.injEq] at h
              obtain ⟨rfl, rfl⟩ := h
              refine leaf_post st st2b st4 token r4 _ hpre3 hfrtok hh2b.1 hnx rfl
                (Or.inl rfl) ?_
              intro m hm
              rw [occursIn_boolean m _ _ _ hm]
              exact good_booleanLiteral _ _ _ (htok.2.2 ht1) hses
            rw [if_neg ht1] at h
            by_cases ht2 : token.type = TOKEN_STRING
            · rw [if_pos ht2] at h
              rcases hnx : next st2b with e | ⟨r4, st4⟩ <;> simp only [hnx] at h
              · cases h
              rw [Except.ok.injEq, Prod.mk.injEq] at h
              obtain ⟨rfl, rfl⟩ := h
              refine leaf_post st st2b st4 token r4 _ hpre3 hfrtok hh2b.1 hnx rfl
                (Or.inl rfl) ?_
              intro m hm
              rw [occursIn_string m _ _ _ hm]
              exact good_stringLiteral _ _ _ (htok.1 ht2) hses
            rw [if_neg ht2] at h
            by_cases ht3 : token.type = TOKEN_NUMBER
            · rw [if_pos ht3] at h
              rcases hnx : next st2b with e | ⟨r4, st4⟩ <;> simp only [hnx] at h
              · cases h
              rw [Except.ok.injEq, Prod.mk.injEq] at h
              obtain ⟨rfl, rfl⟩ := h
              refine leaf_post st st2b st4 token r4 _ hpre3 hfrtok hh2b.1 hnx rfl
                (Or.inl rfl) ?_
              intro m hm
              rw [occursIn_numeric m _ _ _ hm]
              exact good_numericLiteral _ _ _ (htok.2.1 ht3) hses
            rw [if_neg ht3] at h
            by_cases ht4 : token.type = TOKEN_NULL
            · rw [if_pos ht4] at h
              rcases hnx : next st2b with e | ⟨r4, st4⟩ <;> simp only [hnx] at h
              · cases h
              rw [Except.ok.injEq, Prod.mk.injEq] at h
              obtain ⟨rfl, rfl⟩ := h
              refine leaf_post st st2b st4 token r4 _ hpre3 hfrtok hh2b.1 hnx rfl
                (Or.inr rfl) ?_
              intro m hm
              rw [occursIn_null m _ _ hm]
              exact good_nullLiteral _
            rw [if_neg ht4] at h
            cases h
    -- parseObjectLiteral
    · intro st n st2 hpre h
      rcases he1 : ensure st [lbraceV] with e | ⟨startToken, st1⟩ <;>
        simp only [parseObjectLiteral, he1] at h
      · cases h
      obtain ⟨hpre1, -, hfr1, hse1, hend1⟩ := ensure_spec st [lbraceV] startToken st1 hpre he1
      rcases hl : parseObjectLoop fuel st1 [] with e | ⟨props, st2a⟩ <;>
        simp only [hl] at h
      · cases h
      obtain ⟨hpre2, hfr2, hprops⟩ := ihOLoop startToken.start st1 [] props st2a hpre1
        (le_trans hse1 hend1) (by intro p hp; cases hp) hl
      rcases he2 : ensure st2a [rbraceV] with e | ⟨endToken, st3⟩ <;>
        simp only [he2] at h
      · cases h
      obtain ⟨hpre3, -, hfr3, hse3, hend3⟩ := ensure_spec st2a [rbraceV] endToken st3 hpre2 he2
      rw [Except.ok.injEq, Prod.mk.injEq] at h
      obtain ⟨rfl, rfl⟩ := h
      have hspan : startToken.start ≤ endToken.endPos := by
        calc startToken.start ≤ startToken.endPos := hse1
          _ ≤ frontier st1 := hend1
          _ ≤ frontier st2a := hfr2
          _ ≤ endToken.start := hfr3
          _ ≤ endToken.endPos := hse3
      refine ⟨hpre3, hfr1, hspan, hend3, ?_⟩
      intro m hm
      rw [occursIn_object m props _ _ hm]
      refine ⟨⟨fun _ _ _ heq => Node.noConfusion heq, fun _ _ _ heq => Node.noConfusion heq,
        fun _ _ _ heq => Node.noConfusion heq⟩, ⟨hspan, ?_⟩, ?_⟩
      · intro p hp
        have hf := hprops p hp
        refine ⟨hf.2.1, ?_⟩
        intro q hq
        refine ⟨(hf.2.2 q hq).1, ?_⟩
        calc q ≤ frontier st2a := (hf.2.2 q hq).2
          _ ≤ endToken.start := hfr3
          _ ≤ endToken.endPos := hse3
      · intro p hp
        exact (hprops p hp).1
    -- parseObjectLoop
    · intro lo st acc out st2 hpre hlo hacc h
      rcases hi1 : is st rbraceV with e | ⟨b, st1⟩
      · simp only [parseObjectLoop, hi1] at h
        cases h
      obtain ⟨hpre1, hfr1, -⟩ := is_spec st rbraceV b st1 hpre hi1
      cases b with
      | true =>
        simp only [parseObjectLoop, hi1] at h
        rw [Except.ok.injEq, Prod.mk.injEq] at h
        obtain ⟨rfl, rfl⟩ := h
        exact ⟨hpre1, hfr1, fun p hp => propFact_mono lo p _ _ (hacc p hp) hfr1⟩
      | false =>
        simp only [parseObjectLoop, hi1] at h
        rcases ht : ensureType st1 [TOKEN_STRING, TOKEN_NUMBER] with e | ⟨key, st2a⟩ <;>
          simp only [ht] at h
        · cases h
        obtain ⟨hpre2, -, hfr2, hse2, hend2⟩ :=
          ensureType_spec st1 [TOKEN_STRING, TOKEN_NUMBER] key st2a hpre1 ht
        rcases hc : ensure st2a [colonV] with e | ⟨ct, st3⟩ <;> simp only [hc] at h
        · cases h
        obtain ⟨hpre3, -, hfr3, hse3, hend3⟩ := ensure_spec st2a [colonV] ct st3 hpre2 hc
        rcases hv : parseValue fuel st3 with e | ⟨value, st4⟩ <;> simp only [hv] at h
        · cases h
        obtain ⟨hpre4, hfrv, hvse, hvend, hgoodv⟩ := ihV st3 value st4 hpre3 hv
        have hfr34 : frontier st3 ≤ frontier st4 := by
          calc frontier st3 ≤ nodeStart value := hfrv
            _ ≤ nodeEndB value := hvse
            _ ≤ frontier st4 := hvend
        have hkeyval : key.start ≤ nodeStart value := by
          calc key.start ≤ key.endPos := hse2
            _ ≤ frontier st2a := hend2
            _ ≤ ct.start := hfr3
            _ ≤ ct.endPos := hse3
            _ ≤ frontier st3 := hend3
            _ ≤ nodeStart value := hfrv
        have hpfact : ∀ hi2, frontier st4 ≤ hi2 →
            PropFact lo (mkProperty key value key.start (nodeEnd value)) hi2 := by
          intro hi2 hle
          refine ⟨rfl, ?_, ?_⟩
          · calc lo ≤ frontier st := hlo
              _ ≤ frontier st1 := hfr1
              _ ≤ key.start := hfr2
          · intro q hq
            have hqB := nodeEndB_of_nodeEnd value q hq
            constructor
            · rw [← hqB]
              exact le_trans hkeyval hvse
            · rw [← hqB]
              exact le_trans hvend hle
        have hlo4 : lo ≤ frontier st4 := by
          calc lo ≤ frontier st := hlo
            _ ≤ frontier st1 := hfr1
            _ ≤ key.start := hfr2
            _ ≤ nodeStart value := hkeyval
            _ ≤ nodeEndB value := hvse
            _ ≤ frontier st4 := hvend
        have hfr04 : frontier st ≤ frontier st4 := by
          calc frontier st ≤ frontier st1 := hfr1
            _ ≤ key.start := hfr2
            _ ≤ nodeStart value := hkeyval
            _ ≤ nodeEndB value := hvse
            _ ≤ frontier st4 := hvend
        rcases hi2 : is st4 rbraceV with e | ⟨b2, st5⟩
        · simp only [hi2] at h
          cases h
        obtain ⟨hpre5, hfr5, -⟩ := is_spec st4 rbraceV b2 st5 hpre4 hi2
        cases b2 with
        | true =>
          simp only [hi2] at h
          have hrec := ihOLoop lo st5 (acc ++ [mkProperty key value key.start (nodeEnd value)])
            out st2 hpre5 (le_trans hlo4 hfr5) ?_ h
          · exact ⟨hrec.1, le_trans (le_trans hfr04 hfr5) hrec.2.1, hrec.2.2⟩
          · intro p hp
            rcases List.mem_append.mp hp with hp2 | hp2
            · exact propFact_mono lo p _ _ (hacc p hp2)
                (by
                  calc frontier st ≤ frontier st4 := hfr04
                    _ ≤ frontier st5 := hfr5)
            · rw [List.mem_singleton] at hp2
              subst hp2
              exact hpfact _ hfr5
        | false =>
          simp only [hi2] at h
          rcases hcm : ensure st5 [commaV] with e | ⟨cm, st6⟩ <;> simp only [hcm] at h
          · cases h
          obtain ⟨hpre6, -, hfr6, hse6, hend6⟩ := ensure_spec st5 [commaV] cm st6 hpre5 hcm
          have hfr56 : frontier st5 ≤ frontier st6 := le_trans hfr6 (le_trans hse6 hend6)
          have hrec := ihOLoop lo st6 (acc ++ [mkProperty key value key.start (nodeEnd value)])
            out st2 hpre6 (le_trans hlo4 (le_trans hfr5 hfr56)) ?_ h
          · exact ⟨hrec.1, le_trans (le_trans hfr04 (le_trans hfr5 hfr56)) hrec.2.1, hrec.2.2⟩
          · intro p hp
            rcases List.mem_append.mp hp with hp2 | hp2
            · exact propFact_mono lo p _ _ (hacc p hp2)
                (by
                  calc frontier st ≤ frontier st4 := hfr04
                    _ ≤ frontier st5 := hfr5
                    _ ≤ frontier st6 := hfr56)
            · rw [List.mem_singleton] at hp2
              subst hp2
              exact hpfact _ (le_trans hfr5 hfr56)
    -- parseArrayLiteral
    · intro st n st2 hpre h
      rcases he1 : ensure st [lbrackV] with e | ⟨startToken, st1⟩ <;>
        simp only [parseArrayLiteral, he1] at h
      · cases h
      obtain ⟨hpre1, -, hfr1, hse1, hend1⟩ := ensure_spec st [lbrackV] startToken st1 hpre he1
      rcases hl : parseArrayLoop fuel st1 [] with e | ⟨elems, st2a⟩ <;>
        simp only [hl] at h
      · cases h
      obtain ⟨hpre2, hfr2, helems⟩ := ihALoop startToken.start st1 [] elems st2a hpre1
        (le_trans hse1 hend1) (by intro x hx; cases hx) hl
      rcases he2 : ensure st2a [rbrackV] with e | ⟨endToken, st3⟩ <;>
        simp only [he2] at h
      · cases h
      obtain ⟨hpre3, -, hfr3, hse3, hend3⟩ := ensure_spec st2a [rbrackV] endToken st3 hpre2 he2
      rw [Except.ok.injEq, Prod.mk.injEq] at h
      obtain ⟨rfl, rfl⟩ := h
      have hspan : startToken.start ≤ endToken.endPos := by
        calc startToken.start ≤ startToken.endPos := hse1
          _ ≤ frontier st1 := hend1
          _ ≤ frontier st2a := hfr2
          _ ≤ endToken.start := hfr3
          _ ≤ endToken.endPos := hse3
      refine ⟨hpre3, hfr1, hspan, hend3, ?_⟩
      intro m hm
      rcases occursIn_array m elems _ _ hm with rfl | ⟨x, hx, hocc⟩
      · refine ⟨⟨fun _ _ _ heq => Node.noConfusion heq, fun _ _ _ heq => Node.noConfusion heq,
          fun _ _ _ heq => Node.noConfusion heq⟩, ⟨hspan, ?_⟩, trivial⟩
        intro x hx
        have hf := helems x hx
        refine ⟨hf.2.1, hf.2.2.1, ?_⟩
        calc nodeEndB x ≤ frontier st2a := hf.2.2.2
          _ ≤ endToken.start := hfr3
          _ ≤ endToken.endPos := hse3
      · exact (helems x hx).1 m hocc
    -- parseArrayLoop
    · intro lo st acc out st2 hpre hlo hacc h
      rcases hi1 : is st rbrackV with e | ⟨b, st1⟩
      · simp only [parseArrayLoop, hi1] at h
        cases h
      obtain ⟨hpre1, hfr1, -⟩ := is_spec st rbrackV b st1 hpre hi1
      cases b with
      | true =>
        simp only [parseArrayLoop, hi1] at h
        rw [Except.ok.injEq, Prod.mk.injEq] at h
        obtain ⟨rfl, rfl⟩ := h
        exact ⟨hpre1, hfr1, fun x hx => elemFact_mono lo x _ _ (hacc x hx) hfr1⟩
      | false =>
        simp only [parseArrayLoop, hi1] at h
        rcases hv : parseValue fuel st1 with e | ⟨el, st2a⟩ <;> simp only [hv] at h
        · cases h
        obtain ⟨hpre2, hfrv, hvse, hvend, hgoodv⟩ := ihV st1 el st2a hpre1 hv
        have hfr12 : frontier st1 ≤ frontier st2a :=
          le_trans hfrv (le_trans hvse hvend)
        have hefact : ∀ hi2, frontier st2a ≤ hi2 → ElemFact lo el hi2 := by
          intro hi2 hle
          refine ⟨hgoodv, ?_, hvse, le_trans hvend hle⟩
          calc lo ≤ frontier st := hlo
            _ ≤ frontier st1 := hfr1
            _ ≤ nodeStart el := hfrv
        have hfr02 : frontier st ≤ frontier st2a := le_trans hfr1 hfr12
        rcases hi2 : is st2a rbrackV with e | ⟨b2, st3⟩
        · simp only [hi2] at h
          cases h
        obtain ⟨hpre3, hfr3, -⟩ := is_spec st2a rbrackV b2 st3 hpre2 hi2
        cases b2 with
        | true =>
          simp only [hi2] at h
          have hrec := ihALoop lo st3 (acc ++ [el]) out st2 hpre3
            (le_trans hlo (le_trans hfr02 hfr3)) ?_ h
          · exact ⟨hrec.1, le_trans (le_trans hfr02 hfr3) hrec.2.1, hrec.2.2⟩
          · intro x hx
            rcases List.mem_append.mp hx with hx2 | hx2
            · exact elemFact_mono lo x _ _ (hacc x hx2) (le_trans hfr02 hfr3)
            · rw [List.mem_singleton] at hx2
              subst hx2
              exact hefact _ hfr3
        | false =>
          simp only [hi2] at h
          rcases hcm : ensure st3 [commaV] with e | ⟨cm, st4⟩ <;> simp only [hcm] at h
          · cases h
          obtain ⟨hpre4, -, hfr4, hse4, hend4⟩ := ensure_spec st3 [commaV] cm st4 hpre3 hcm
          have hfr34 : frontier st3 ≤ frontier st4 := le_trans hfr4 (le_trans hse4 hend4)
          have hrec := ihALoop lo st4 (acc ++ [el]) out st2 hpre4
            (le_trans hlo (le_trans hfr02 (le_trans hfr3 hfr34))) ?_ h
          · exact ⟨hrec.1,
              le_trans (le_trans hfr02 (le_trans hfr3 hfr34)) hrec.2.1, hrec.2.2⟩
          · intro x hx
            rcases List.mem_append.mp hx with hx2 | hx2
            · exact elemFact_mono lo x _ _ (hacc x hx2)
                (le_trans hfr02 (le_trans hfr3 hfr34))
            · rw [List.mem_singleton] at hx2
              subst hx2
              exact hefact _ (le_trans hfr3 hfr34)

/-- Every node occurring in a successful parse satisfies all node
invariants. -/
theorem parseChars_good (input : List Char) (r : ParseResult)
    (h : parseChars input = .ok r) : ∀ m, OccursIn m r.program → Good m := by
  unfold parseChars at h
  rcases hv : parseValue (3 * input.length + 8) ⟨input, 0, []⟩ with e | ⟨n, st2⟩ <;>
    rw [hv] at h
  · cases h
  · rw [Except.ok.injEq] at h
    subst h
    have hpre : Pre ⟨input, 0, []⟩ := ⟨fun t ht => absurd ht (by simp), trivial⟩
    exact ((parserInv (3 * input.length + 8)).1 _ n st2 hpre hv).2.2.2.2

/-! Lexer stream lemmas for the peek contract. -/

/-- The observable continuation of the token stream: up to `k` further calls
of `next`, collecting the tokens delivered and the terminating error when one
is raised. -/
def nextTokens : Nat → LexerState → List Token × Option JsError
  | 0, _ => ([], none)
  | k + 1, st =>
    match next st with
    | .error e => ([], some e)
    | .ok (.done, _) => ([], none)
    | .ok (.tok t, st2) =>
      match nextTokens k st2 with
      | (ts, e) => (t :: ts, e)

theorem nextTokens_lex_push (src : List Char) (t : Token) (i i2 : Nat)
    (hlex : lex src i = .ok (t, i2)) :
    ∀ k s, nextTokens k ⟨src, i2, s ++ [t]⟩ = nextTokens k ⟨src, i, s⟩ := by
  intro k
  induction k with
  | zero => intro s; rfl
  | succ k ih =>
    intro s
    cases s with
    | nil =>
      have hlt : i < src.length := lex_ok_lt src i t i2 hlex
      have hnr : next ⟨src, i, ([] : List Token)⟩ = .ok (.tok t, ⟨src, i2, []⟩) := by
        simp only [next]
        rw [if_neg (by omega), hlex]
      have hnl : next ⟨src, i2, ([] : List Token) ++ [t]⟩ = .ok (.tok t, ⟨src, i2, []⟩) := by
        simp only [List.nil_append, next]
      simp only [nextTokens, hnr, hnl]
    | cons u us =>
      have hnr : next ⟨src, i, u :: us⟩ = .ok (.tok u, ⟨src, i, us⟩) := by
        simp only [next]
      have hnl : next ⟨src, i2, (u :: us) ++ [t]⟩ = .ok (.tok u, ⟨src, i2, us ++ [t]⟩) := by
        simp only [List.cons_append, next]
      simp only [nextTokens, hnr, hnl, ih us]

/-- A `peek` does not change the stream of tokens later returned by `next`. -/
theorem peek_nextTokens (st : LexerState) (o : Option Token) (st2 : LexerState)
    (h : peek st = .ok (o, st2)) :
    ∀ k, nextTokens k st2 = nextTokens k st := by
  intro k
  rcases peek_cases st o st2 h with ⟨-, rfl, -⟩ | ⟨t, idx2, -, hlex, rfl, -⟩
  · rfl
  · obtain ⟨src, index, stash⟩ := st
    exact nextTokens_lex_push src t index idx2 hlex k stash

/-- The stash head is what a successful peek returns. -/
theorem peek_head (st : LexerState) (o : Option Token) (st2 : LexerState)
    (h : peek st = .ok (o, st2)) : o = st2.stash.head? := by
  rcases peek_cases st o st2 h with ⟨-, rfl, ho⟩ | ⟨t, idx2, -, -, rfl, ho⟩ <;>
    exact ho

/-- Two successful consecutive peeks return the same token. -/
theorem peek_peek (st : LexerState) (t : Token) (st1 : LexerState)
    (o : Option Token) (st2 : LexerState)
    (h1 : peek st = .ok (some t, st1)) (h2 : peek st1 = .ok (o, st2)) :
    o = some t := by
  have hh1 : st1.stash.head? = some t := (peek_head st (some t) st1 h1).symm
  have hh2 := peek_head st1 o st2 h2
  rcases peek_cases st1 o st2 h2 with ⟨-, rfl, ho⟩ | ⟨u, idx2, -, -, rfl, ho⟩
  · rw [ho, hh1]
  · rw [ho]
    cases hst : st1.stash with
    | nil => rw [hst] at hh1; cases hh1
    | cons v vs =>
      rw [hst] at hh1
      simp only [List.head?_cons, Option.some.injEq] at hh1
      subst hh1
      simp [hst]

/-- A peek followed by `next` yields the very token the peek returned. -/
theorem peek_then_next (st : LexerState) (t : Token) (st1 : LexerState)
    (h : peek st = .ok (some t, st1)) :
    ∃ st2, next st1 = .ok (.tok t, st2) := by
  have hh : st1.stash.head? = some t := (peek_head st (some t) st1 h).symm
  obtain ⟨src, index, stash⟩ := st1
  cases stash with
  | nil => cases hh
  | cons u us =>
    simp only [List.head?_cons, Option.some.injEq] at hh
    subst hh
    exact ⟨⟨src, index, us⟩, rfl⟩

/-- On exhausted input with an empty stash, peek returns the null sentinel. -/
theorem peek_exhausted (st : LexerState) (hstash : st.stash = [])
    (hend : st.source.length ≤ st.index) : peek st = .ok (none, st) := by
  obtain ⟨src, index, stash⟩ := st
  simp only at hstash
  subst hstash
  simp only at hend
  simp [peek, lookahead, fillLoop, hend]

/-! Characterization of the whitespace skipped by the lexer. -/

/-- The run skipped by `skipWhitespace` consists exactly of the characters
with code at most 32, stopping at the first character with a larger code. -/
theorem wsCount_spec (cs : List Char) :
    ∃ pre post, cs = pre ++ post ∧ wsCount cs = pre.length ∧
      (∀ c ∈ pre, c.toNat ≤ 32) ∧ (∀ c, post.head? = some c → 32 < c.toNat) := by
  induction cs using wsCount.induct with
  | case1 =>
    exact ⟨[], [], rfl, rfl, by simp, by intro c hc; cases hc⟩
  | case2 c hc =>
    refine ⟨[c], [], rfl, ?_, ?_, ?_⟩
    · simp [wsCount, hc]
    · intro x hx
      rw [List.mem_singleton] at hx
      subst hx
      exact hc
    · intro x hx
      cases hx
  | case3 c hc =>
    refine ⟨[], [c], rfl, ?_, by simp, ?_⟩
    · simp [wsCount, hc]
    · intro x hx
      simp only [List.head?_cons, Option.some.injEq] at hx
      subst hx
      omega
  | case4 c d rest h13 h10 ih =>
    obtain ⟨pre, post, heq, hlen, hpre, hpost⟩ := ih
    refine ⟨c :: d :: pre, post, by simp [heq], ?_, ?_, hpost⟩
    · simp only [wsCount, h13, h10, if_true, hlen, List.length_cons]
      omega
    · intro x hx
      rcases List.mem_cons.mp hx with rfl | hx2
      · omega
      · rcases List.mem_cons.mp hx2 with rfl | hx3
        · omega
        · exact hpre x hx3
  | case5 c d rest h13 h10 ih =>
    obtain ⟨pre, post, heq, hlen, hpre, hpost⟩ := ih
    refine ⟨c :: pre, post, by simp [← List.cons_append, ← heq], ?_, ?_, hpost⟩
    · simp only [wsCount, h13, h10, if_true, if_false, hlen, List.length_cons]
      omega
    · intro x hx
      rcases List.mem_cons.mp hx with rfl | hx2
      · omega
      · exact hpre x hx2
  | case6 c d rest h13 hle ih =>
    obtain ⟨pre, post, heq, hlen, hpre, hpost⟩ := ih
    refine ⟨c :: pre, post, by simp [← List.cons_append, ← heq], ?_, ?_, hpost⟩
    · simp only [wsCount, h13, hle, if_true, if_false, hlen, List.length_cons]
      omega
    · intro x hx
      rcases List.mem_cons.mp hx with rfl | hx2
      · exact hle
      · exact hpre x hx2
  | case7 c d rest h13 hgt =>
    refine ⟨[], c :: d :: rest, rfl, ?_, by simp, ?_⟩
    · simp [wsCount, h13, hgt]
    · intro x hx
      simp only [List.head?_cons, Option.some.injEq] at hx
      subst hx
      omega

/-- Characters with code above 32 are never part of the skipped run. -/
theorem wsCount_nonws (c : Char) (rest : List Char) (h : 32 < c.toNat) :
    wsCount (c :: rest) = 0 := by
  cases rest with
  | nil =>
    simp only [wsCount]
    rw [if_neg (by omega)]
  | cons d rest2 =>
    simp only [wsCount]
    rw [if_neg (by omega), if_neg (by omega)]

/-! Exponent lemmas: the sign after the exponent letter is mandatory. -/

/-- Absence of the exponent letters from a character list. -/
def NoExpChar (l : List Char) : Prop := ∀ c ∈ l, c ≠ 'e' ∧ c ≠ 'E'

theorem digits_noExp (ds : List Char) (h : ∀ c ∈ ds, isDigit c = true) :
    NoExpChar ds := fun c hc =>
  ⟨(isDigit_ne_chars c (h c hc)).2.2.1, (isDigit_ne_chars c (h c hc)).2.2.2.1⟩

theorem intShape_noExp (li : List Char) (h : IntShape li) : NoExpChar li := by
  have hcore : ∀ m, IntCoreShape m → NoExpChar m := by
    rintro m (⟨d, rfl, hd⟩ | ⟨a, b, ds, rfl, ha, hb, hds⟩)
    · exact digits_noExp [d] (by intro c hc; rw [List.mem_singleton] at hc; subst hc; exact hd)
    · intro c hc
      rcases List.mem_cons.mp hc with rfl | hc2
      · have hdig : isDigit c = true := by
          rw [isOneNine] at ha
          rw [isDigit_iff]
          simp only [Bool.and_eq_true, decide_eq_true_eq] at ha
          omega
        exact ⟨(isDigit_ne_chars c hdig).2.2.1, (isDigit_ne_chars c hdig).2.2.2.1⟩
      · rcases List.mem_cons.mp hc2 with rfl | hc3
        · exact ⟨(isDigit_ne_chars c hb).2.2.1, (isDigit_ne_chars c hb).2.2.2.1⟩
        · exact digits_noExp ds hds c hc3
  rcases h with hc | ⟨m, rfl, hm⟩
  · exact hcore li hc
  · intro c hc
    rcases List.mem_cons.mp hc with rfl | hc2
    · exact ⟨by decide, by decide⟩
    · exact hcore m hm c hc2

theorem fracShape_noExp (lf : List Char) (h : FracShape lf) : NoExpChar lf := by
  obtain ⟨ds, rfl, -, hds⟩ := h
  intro c hc
  rcases List.mem_cons.mp hc with rfl | hc2
  · exact ⟨by decide, by decide⟩
  · exact digits_noExp ds hds c hc2

theorem noExp_append (a b : List Char) (ha : NoExpChar a) (hb : NoExpChar b) :
    NoExpChar (a ++ b) := by
  intro c hc
  rcases List.mem_append.mp hc with hc2 | hc2
  · exact ha c hc2
  · exact hb c hc2

theorem eSign_parts (pre le : List Char) (hpre : NoExpChar pre)
    (hle : le = [] ∨ ExpShape le) :
    ∀ i c, (pre ++ le).get? i = some c → (c = 'e' ∨ c = 'E') →
      ∃ s2, (pre ++ le).get? (i + 1) = some s2 ∧ (s2 = '+' ∨ s2 = '-') := by
  intro i c hi hc
  by_cases hlt : i < pre.length
  · rw [List.get?_append hlt] at hi
    have hmem := hpre c (List.get?_mem hi)
    rcases hc with rfl | rfl
    · exact absurd rfl hmem.1
    · exact absurd rfl hmem.2
  · push_neg at hlt
    rw [List.get?_append_right hlt] at hi
    rcases hle with rfl | ⟨e0, s0, ds, rfl, he0, hs0, hdne, hdds⟩
    · rw [List.get?_nil] at hi
      cases hi
    · rcases hk : i - pre.length with - | k
      · rw [hk] at hi
        simp only [List.get?_cons_zero, Option.some.injEq] at hi
        subst hi
        refine ⟨s0, ?_, hs0⟩
        rw [List.get?_append_right (by omega)]
        have hone : i + 1 - pre.length = 1 := by omega
        rw [hone]
        rfl
      · rw [hk] at hi
        simp only [List.get?_cons_succ] at hi
        cases k with
        | zero =>
          simp only [List.get?_cons_zero, Option.some.injEq] at hi
          subst hi
          rcases hs0 with rfl | rfl <;> rcases hc with h2 | h2 <;> cases h2
        | succ k2 =>
          simp only [List.get?_cons_succ] at hi
          have hd := hdds c (List.get?_mem hi)
          rcases hc with rfl | rfl
          · exact absurd rfl (isDigit_ne_chars _ hd).2.2.1
          · exact absurd rfl (isDigit_ne_chars _ hd).2.2.2.1

/-- Inside every lexeme the number matcher produces, an exponent letter is
always immediately followed by an explicit sign. -/
theorem numLexeme_exp_signed (cs l r : List Char) (h : matchNumber cs = some (l, r)) :
    ∀ i c, l.get? i = some c → (c = 'e' ∨ c = 'E') →
      ∃ s2, l.get? (i + 1) = some s2 ∧ (s2 = '+' ∨ s2 = '-') := by
  have hsh := (matchNumber_inv cs l r h).2
  rcases hsh with ⟨lf, le, rfl, hf, hle⟩ | ⟨li, lf, le, rfl, hi, hlf, hle⟩
  · exact eSign_parts lf le (fracShape_noExp lf hf) hle
  · refine eSign_parts (li ++ lf) le ?_ hle
    refine noExp_append li lf (intShape_noExp li hi) ?_
    rcases hlf with rfl | hlf2
    · intro c hc
      cases hc
    · exact fracShape_noExp lf hlf2

/-- The exponent recognizer rejects a digit directly after the letter: there
is no sign optional form. -/
theorem matchExp_digit_none (e0 d : Char) (rest : List Char)
    (he : e0 = 'e' ∨ e0 = 'E') (hd : isDigit d = true) :
    matchExp (e0 :: d :: rest) = none := by
  have h1 : ¬((e0 = 'e' || e0 = 'E') && (d = '+' || d = '-')) = true := by
    intro hcond
    have h2 := (Bool.and_eq_true_iff.mp hcond).2
    simp only [Bool.or_eq_true, decide_eq_true_eq] at h2
    rcases h2 with rfl | rfl
    · exact absurd rfl (isDigit_ne_chars _ hd).2.2.2.2.2.2.2
    · exact absurd rfl (isDigit_ne_chars _ hd).2.1
  simp only [matchExp]
  rw [if_neg h1]

/-! Reparse lemmas: feeding a produced lexeme back into `parse`. -/

theorem parseChars_eval_single (v : List Char) (ty : String)
    (hne : 0 < v.length)
    (hlex : lex v 0 = .ok (mkToken ty v 0, v.length))
    (hnb : ¬(v = lbraceV)) (hnk : ¬(v = lbrackV)) :
    parseChars v =
      if ty = TOKEN_BOOLEAN then .ok ⟨.booleanLiteral v 0 (0 + v.length)⟩
      else if ty = TOKEN_STRING then .ok ⟨.stringLiteral v 0 (0 + v.length)⟩
      else if ty = TOKEN_NUMBER then .ok ⟨.numericLiteral v 0 (0 + v.length)⟩
      else if ty = TOKEN_NULL then .ok ⟨.nullLiteral 0 none⟩
      else .error (.thrown ("Unexpected token " ++ String.mk v)) := by
  have hcond : ¬(v.length ≤ 0) := by omega
  have hpeek : peek ⟨v, 0, []⟩ =
      .ok (some (mkToken ty v 0), ⟨v, v.length, [mkToken ty v 0]⟩) := by
    simp only [peek, lookahead, fillLoop, hcond, if_false, hlex]
    rfl
  have hpeek2 : peek ⟨v, v.length, [mkToken ty v 0]⟩ =
      .ok (some (mkToken ty v 0), ⟨v, v.length, [mkToken ty v 0]⟩) := by
    simp [peek, lookahead, fillLoop]
  have his1 : is ⟨v, v.length, [mkToken ty v 0]⟩ lbraceV =
      .ok (false, ⟨v, v.length, [mkToken ty v 0]⟩) := by
    simp only [is, hpeek2]
    have hd : decide ((mkToken ty v 0).value = lbraceV) = false := decide_eq_false hnb
    rw [hd]
  have his2 : is ⟨v, v.length, [mkToken ty v 0]⟩ lbrackV =
      .ok (false, ⟨v, v.length, [mkToken ty v 0]⟩) := by
    simp only [is, hpeek2]
    have hd : decide ((mkToken ty v 0).value = lbrackV) = false := decide_eq_false hnk
    rw [hd]
  have hnext : next ⟨v, v.length, [mkToken ty v 0]⟩ =
      .ok (.tok (mkToken ty v 0), ⟨v, v.length, []⟩) := rfl
  have hfuel : 3 * v.length + 8 = (3 * v.length + 7) + 1 := rfl
  unfold parseChars
  rw [hfuel]
  simp only [parseValue, hpeek, his1, his2, hnext, Bool.false_eq_true, if_false]
  by_cases h1 : ty = TOKEN_BOOLEAN
  · simp [h1, mkToken]
  by_cases h2 : ty = TOKEN_STRING
  · simp [h1, h2, mkToken, show ¬(TOKEN_STRING = TOKEN_BOOLEAN) by decide]
  by_cases h3 : ty = TOKEN_NUMBER
  · simp [h1, h2, h3, mkToken, show ¬(TOKEN_NUMBER = TOKEN_BOOLEAN) by decide,
      show ¬(TOKEN_NUMBER = TOKEN_STRING) by decide]
  by_cases h4 : ty = TOKEN_NULL
  · simp [h1, h2, h3, h4, mkToken, show ¬(TOKEN_NULL = TOKEN_BOOLEAN) by decide,
      show ¬(TOKEN_NULL = TOKEN_STRING) by decide, show ¬(TOKEN_NULL = TOKEN_NUMBER) by decide]
  simp [h1, h2, h3, h4, mkToken]

theorem reparse_number (v : List Char) (hv : matchNumber v = some (v, [])) :
    parseChars v = .ok ⟨.numericLiteral v 0 v.length⟩ := by
  have hsh := (matchNumber_inv v v [] (by simpa using hv)).2
  obtain ⟨c, cs, hveq, hc⟩ := numShape_head v hsh
  subst hveq
  have hchar : 32 < c.toNat ∧ c ≠ '"' ∧ c ≠ '\x7b' ∧ c ≠ '[' := by
    rcases hc with rfl | rfl | hd
    · exact ⟨by decide, by decide, by decide, by decide⟩
    · exact ⟨by decide, by decide, by decide, by decide⟩
    · have h1 := (isDigit_iff c).mp hd
      have h2 := isDigit_ne_chars c hd
      exact ⟨by omega, h2.2.2.2.2.1, h2.2.2.2.2.2.1, h2.2.2.2.2.2.2.1⟩
  have hlex : lex (c :: cs) 0 = .ok (mkToken TOKEN_NUMBER (c :: cs) 0, (c :: cs).length) := by
    have hws : skipWhitespace (c :: cs) 0 = 0 := by
      simp [skipWhitespace, wsCount_nonws c cs hchar.1]
    have hs0 : matchString (c :: cs) = none := by
      simp [matchString, hchar.2.1]
    have hws2 : skipWhitespace (c :: cs) (0 + (c :: cs).length) = (c :: cs).length := by
      simp [skipWhitespace, wsCount]
    simp only [lex, hws, List.drop_zero, hs0, hv, lexFinish, hws2]
  have hnb : ¬(c :: cs = lbraceV) := by
    intro h2
    rw [lbraceV] at h2
    injection h2 with h3 h4
    exact absurd h3 hchar.2.2.1
  have hnk : ¬(c :: cs = lbrackV) := by
    intro h2
    rw [lbrackV] at h2
    injection h2 with h3 h4
    exact absurd h3 hchar.2.2.2
  have := parseChars_eval_single (c :: cs) TOKEN_NUMBER (by simp) hlex hnb hnk
  rw [this]
  norm_num [show ¬(TOKEN_NUMBER = TOKEN_BOOLEAN) by decide,
    show ¬(TOKEN_NUMBER = TOKEN_STRING) by decide]

theorem reparse_string (v : List Char) (hv : matchString v = some (v, [])) :
    parseChars v = .ok ⟨.stringLiteral v 0 v.length⟩ := by
  obtain ⟨body, -, hl, -⟩ := matchString_inv v v [] hv
  have hchar : 32 < ('"' : Char).toNat := by decide
  have hlex : lex v 0 = .ok (mkToken TOKEN_STRING v 0, v.length) := by
    have hws : skipWhitespace v 0 = 0 := by
      rw [hl]
      simp only [skipWhitespace, List.drop_zero, List.cons_append]
      rw [wsCount_nonws _ _ hchar]
    have hws2 : skipWhitespace v (0 + v.length) = v.length := by
      simp [skipWhitespace, wsCount]
    simp only [lex, hws, List.drop_zero, hv, lexFinish, hws2]
  have hnb : ¬(v = lbraceV) := by
    intro h2
    rw [hl, lbraceV] at h2
    rw [List.cons_append] at h2
    injection h2 with h3 h4
    exact absurd h3 (by decide)
  have hnk : ¬(v = lbrackV) := by
    intro h2
    rw [hl, lbrackV] at h2
    rw [List.cons_append] at h2
    injection h2 with h3 h4
    exact absurd h3 (by decide)
  have hlen : 0 < v.length := by
    rw [hl]
    simp
  have := parseChars_eval_single v TOKEN_STRING hlen hlex hnb hnk
  rw [this]
  norm_num [show ¬(TOKEN_STRING = TOKEN_BOOLEAN) by decide]

/-! Failure of the string matcher, and of parse, on raw line feeds and raw
letters b inside a string literal body. -/

theorem isOneNine_isDigit (c : Char) (h : isOneNine c = true) : isDigit c = true := by
  simp only [isOneNine, Bool.and_eq_true, decide_eq_true_eq] at h
  simp only [isDigit, Bool.and_eq_true, decide_eq_true_eq]
  omega

theorem matchNumber_head_none (c : Char) (t : List Char)
    (h1 : ¬(c = '.')) (h2 : ¬(c = '-')) (h3 : isDigit c = false) :
    matchNumber (c :: t) = none := by
  have hf : matchFrac (c :: t) = none := by
    simp only [matchFrac]
    rw [if_neg h1]
  have h9 : isOneNine c = false := by
    cases h : isOneNine c
    · rfl
    · rw [isOneNine_isDigit c h] at h3
      cases h3
  have hic : matchIntCore (c :: t) = none := by
    cases t with
    | nil => simp [matchIntCore, h3]
    | cons d rest => simp [matchIntCore, h9, h3]
  have hi : matchInt (c :: t) = none := by
    simp only [matchInt]
    rw [if_neg h2, hic]
  simp only [matchNumber, hf, hi]

theorem quotefree_body_eq (body body2 r : List Char) (hq : '"' ∉ body)
    (heq : body ++ ['"'] = body2 ++ '"' :: r) : body2 = body ∧ r = [] := by
  have hlen : body.length + 1 = body2.length + (r.length + 1) := by
    have h2 := congrArg List.length heq
    simpa [List.length_append] using h2
  rcases Nat.lt_or_ge body2.length body.length with hlt | hge
  · exfalso
    have h1 : (body2 ++ '"' :: r).get? body2.length = some '"' := by
      rw [List.get?_append_right (le_refl _)]
      simp
    rw [← heq, List.get?_append hlt] at h1
    exact hq (List.get?_mem h1)
  · have hle : body.length = body2.length := by omega
    obtain ⟨hb, ht⟩ := List.append_inj heq hle
    refine ⟨hb.symm, ?_⟩
    injection ht with h3 h4
    exact h4.symm

theorem matchString_quotefree_chunks (body l r : List Char) (hq : '"' ∉ body)
    (h : matchString ('"' :: body ++ ['"']) = some (l, r)) : Chunks body := by
  obtain ⟨body2, heq, -, hch⟩ := matchString_inv _ l r h
  simp only [List.cons_append, List.cons.injEq, true_and] at heq
  obtain ⟨rfl, -⟩ := quotefree_body_eq body body2 r hq heq
  exact hch

theorem matchString_rawlf_none (body : List Char) (hq : '"' ∉ body) (i : Nat)
    (hlf : body.get? i = some '\n')
    (hraw : ∀ j, i = j + 1 → body.get? j ≠ some '\\') :
    matchString ('"' :: body ++ ['"']) = none := by
  rcases h : matchString ('"' :: body ++ ['"']) with - | ⟨l, r⟩
  · rfl
  · exfalso
    have hch := matchString_quotefree_chunks body l r hq h
    obtain ⟨j, hij, hj⟩ := chunks_lf body hch i hlf
    exact hraw j hij hj

theorem matchString_rawb_none (body : List Char) (hq : '"' ∉ body) (i : Nat)
    (hb : body.get? i = some 'b')
    (hraw : ∀ j, j < i → i ≤ j + 5 → body.get? j ≠ some '\\') :
    matchString ('"' :: body ++ ['"']) = none := by
  rcases h : matchString ('"' :: body ++ ['"']) with - | ⟨l, r⟩
  · rfl
  · exfalso
    have hch := matchString_quotefree_chunks body l r hq h
    obtain ⟨j, hj1, hj2, hj⟩ := chunks_b body hch i hb
    exact hraw j hj1 hj2 hj

/-- A successful `is` reports equality of the lexeme of the stash head with
the probed value, and keeps that head in place. -/
theorem is_head_preserve (st : LexerState) (v : List Char) (b : Bool)
    (st2 : LexerState) (u : Token) (hu : st.stash.head? = some u)
    (h : is st v = .ok (b, st2)) :
    b = decide (u.value = v) ∧ st2.stash.head? = some u := by
  unfold is at h
  rcases hp : peek st with e | ⟨o, st3⟩ <;> rw [hp] at h
  · cases h
  · cases o with
    | none => simp only at h; cases h
    | some t =>
      simp only [Except.ok.injEq, Prod.mk.injEq] at h
      obtain ⟨rfl, rfl⟩ := h
      rcases peek_cases st (some t) st3 hp with ⟨-, rfl, ho⟩ | ⟨x, idx2, -, -, rfl, ho⟩
      · rw [hu, Option.some.injEq] at ho
        subst ho
        exact ⟨rfl, hu⟩
      · obtain ⟨src, index, stash⟩ := st
        simp only at hu ho ⊢
        cases stash with
        | nil => cases hu
        | cons w ws =>
          simp only [List.head?_cons, Option.some.injEq] at hu
          subst hu
          simp only [List.cons_append, List.head?_cons, Option.some.injEq] at ho
          subst ho
          exact ⟨rfl, by simp⟩

/-- Parsing any input that opens with a double quote on which the string
pattern fails: the quote lexes as a punctuator, and `parseValue` rejects it
(directly, or earlier through a failing eager lookahead). -/
theorem parseChars_quote_fails (rest : List Char)
    (hstr : matchString ('"' :: rest) = none) :
    ∃ e, parseChars ('"' :: rest) = .error e := by
  have hnum : matchNumber ('"' :: rest) = none :=
    matchNumber_head_none '"' rest (by decide) (by decide) (by decide)
  have hws : skipWhitespace ('"' :: rest) 0 = 0 := by
    simp [skipWhitespace, wsCount_nonws '"' rest (by decide)]
  have hpunc : matchPunc ('"' :: rest) = some (['"'], rest) := rfl
  have hlex : lex ('"' :: rest) 0 =
      .ok (mkToken TOKEN_PUNCTUATOR ['"'] 0, skipWhitespace ('"' :: rest) (0 + 1)) := by
    simp only [lex, hws, List.drop_zero, hstr, hnum, hpunc, lexFinish]
    rfl
  have hcond : ¬(('"' :: rest).length ≤ 0) := by simp
  have hpeek : peek ⟨'"' :: rest, 0, []⟩ =
      .ok (some (mkToken TOKEN_PUNCTUATOR ['"'] 0),
        ⟨'"' :: rest, skipWhitespace ('"' :: rest) (0 + 1),
          [mkToken TOKEN_PUNCTUATOR ['"'] 0]⟩) := by
    simp only [peek, lookahead, fillLoop, hcond, if_false, hlex]
    rfl
  have hfuel : 3 * ('"' :: rest).length + 8 = (3 * ('"' :: rest).length + 7) + 1 := rfl
  rcases his1 : is ⟨'"' :: rest, skipWhitespace ('"' :: rest) (0 + 1),
      [mkToken TOKEN_PUNCTUATOR ['"'] 0]⟩ lbraceV with e | ⟨b1, st2⟩
  · refine ⟨e, ?_⟩
    unfold parseChars
    rw [hfuel]
    simp only [parseValue, hpeek, his1]
  · obtain ⟨hb1, hh2⟩ := is_head_preserve
      ⟨'"' :: rest, skipWhitespace ('"' :: rest) (0 + 1),
        [mkToken TOKEN_PUNCTUATOR ['"'] 0]⟩
      lbraceV b1 st2 (mkToken TOKEN_PUNCTUATOR ['"'] 0) rfl his1
    have hb1f : b1 = false := by
      rw [hb1]
      decide
    subst hb1f
    rcases his2 : is st2 lbrackV with e | ⟨b2, st3⟩
    · refine ⟨e, ?_⟩
      unfold parseChars
      rw [hfuel]
      simp only [parseValue, hpeek, his1, Bool.false_eq_true, if_false, his2]
    · obtain ⟨hb2, hh3⟩ := is_head_preserve st2 lbrackV b2 st3
        (mkToken TOKEN_PUNCTUATOR ['"'] 0) hh2 his2
      have hb2f : b2 = false := by
        rw [hb2]
        decide
      subst hb2f
      refine ⟨.thrown ("Unexpected token " ++ String.mk ['"']), ?_⟩
      unfold parseChars
      rw [hfuel]
      simp only [parseValue, hpeek, his1, Bool.false_eq_true, if_false, his2]
      simp [mkToken, show ¬(TOKEN_PUNCTUATOR = TOKEN_BOOLEAN) by decide,
        show ¬(TOKEN_PUNCTUATOR = TOKEN_STRING) by decide,
        show ¬(TOKEN_PUNCTUATOR = TOKEN_NUMBER) by decide,
        show ¬(TOKEN_PUNCTUATOR = TOKEN_NULL) by decide]

theorem parseChars_rawlf_fails (body : List Char) (hq : '"' ∉ body) (i : Nat)
    (hlf : body.get? i = some '\n')
    (hraw : ∀ j, i = j + 1 → body.get? j ≠ some '\\') :
    ∃ e, parseChars ('"' :: body ++ ['"']) = .error e :=
  parseChars_quote_fails (body ++ ['"']) (matchString_rawlf_none body hq i hlf hraw)

theorem parseChars_rawb_fails (body : List Char) (hq : '"' ∉ body) (i : Nat)
    (hb : body.get? i = some 'b')
    (hraw : ∀ j, j < i → i ≤ j + 5 → body.get? j ≠ some '\\') :
    ∃ e, parseChars ('"' :: body ++ ['"']) = .error e :=
  parseChars_quote_fails (body ++ ['"']) (matchString_rawb_none body hq i hb hraw)

/-! The claims. -/

/-- Claim C1 (corrected): the Property node built for a parsed object member
stores its key token, its start (equal to the key token's start) and its end
(the value's end, when one exists, bounded by the object's span); only the
value is dropped — the start and end ARE assigned, contrary to the original
claim. -/
theorem claim_c1_property_population :
    (∀ key v1 v2 s e, mkProperty key v1 s e = mkProperty key v2 s e) ∧
    (∀ input r, parseChars input = .ok r →
      ∀ ps s e, OccursIn (.objectLiteral ps s e) r.program →
        ∀ p ∈ ps, p.start = p.key.start ∧
          ∀ q, p.endPos = some q → p.start ≤ q ∧ q ≤ e) := by
  refine ⟨fun key v1 v2 s e => rfl, ?_⟩
  intro input r h ps s e hocc p hp
  have hg := parseChars_good input r h _ hocc
  exact ⟨hg.2.2 p hp, fun q hq => (hg.2.1.2 p hp).2 q hq⟩

theorem claim_c1_witness :
    ∀ p ∈ [Property.mk (mkToken TOKEN_STRING ['"', 'a', '"'] 1) 1 (some 6)],
      p.start = p.key.start ∧ ∀ q, p.endPos = some q → p.start ≤ q ∧ q ≤ 7 :=
  claim_c1_property_population.2 ['\x7b', '"', 'a', '"', ':', '1', '\x7d']
    ⟨.objectLiteral [⟨mkToken TOKEN_STRING ['"', 'a', '"'] 1, 1, some 6⟩] 0 7⟩
    rfl _ 0 7 (OccursIn.refl _)

theorem claim_c1_counterexample :
    parse "\x7b\x22a\x22:1\x7d" =
      .ok ⟨.objectLiteral [⟨mkToken TOKEN_STRING ['"', 'a', '"'] 1, 1, some 6⟩] 0 7⟩ ∧
    (Property.mk (mkToken TOKEN_STRING ['"', 'a', '"'] 1) 1 (some 6)).endPos ≠ none ∧
    (Property.mk (mkToken TOKEN_STRING ['"', 'a', '"'] 1) 1 (some 6)).start = 1 :=
  ⟨rfl, by decide, rfl⟩

/-- Claim C2 (corrected): `peek` is `lookahead(0)`; two consecutive peeks
agree and a peek then a `next` yields the peeked token WHEN the second call
succeeds; a peek never changes the stream later delivered by `next`; on
exhausted input it returns the null sentinel.  But each peek eagerly lexes one
further token, so a peek after a well-formed token can fail on ill-formed
input beyond it, contrary to the original claim. -/
theorem claim_c2_peek_contract :
    (∀ st, peek st = lookahead st 0) ∧
    (∀ st t st1 o st2, peek st = .ok (some t, st1) → peek st1 = .ok (o, st2) →
      o = some t) ∧
    (∀ st t st1, peek st = .ok (some t, st1) →
      ∃ st2, next st1 = .ok (.tok t, st2)) ∧
    (∀ st o st2, peek st = .ok (o, st2) → ∀ k, nextTokens k st2 = nextTokens k st) ∧
    (∀ st, st.stash = [] → st.source.length ≤ st.index → peek st = .ok (none, st)) :=
  ⟨fun st => rfl, peek_peek, peek_then_next, peek_nextTokens, peek_exhausted⟩

theorem claim_c2_witness :
    ((some (mkToken TOKEN_NUMBER ['1'] 0) : Option Token) =
      some (mkToken TOKEN_NUMBER ['1'] 0)) ∧
    (∃ st2, next ⟨['1'], 1, [mkToken TOKEN_NUMBER ['1'] 0]⟩ =
      .ok (.tok (mkToken TOKEN_NUMBER ['1'] 0), st2)) ∧
    nextTokens 1 ⟨['1'], 1, [mkToken TOKEN_NUMBER ['1'] 0]⟩ =
      nextTokens 1 ⟨['1'], 0, []⟩ ∧
    peek ⟨['1'], 1, []⟩ = .ok (none, ⟨['1'], 1, []⟩) := by
  refine ⟨?_, ?_, ?_, ?_⟩
  · exact claim_c2_peek_contract.2.1 ⟨['1'], 0, []⟩ (mkToken TOKEN_NUMBER ['1'] 0)
      ⟨['1'], 1, [mkToken TOKEN_NUMBER ['1'] 0]⟩ (some (mkToken TOKEN_NUMBER ['1'] 0))
      ⟨['1'], 1, [mkToken TOKEN_NUMBER ['1'] 0]⟩ rfl rfl
  · exact claim_c2_peek_contract.2.2.1 ⟨['1'], 0, []⟩ (mkToken TOKEN_NUMBER ['1'] 0)
      ⟨['1'], 1, [mkToken TOKEN_NUMBER ['1'] 0]⟩ rfl
  · exact claim_c2_peek_contract.2.2.2.1 ⟨['1'], 0, []⟩
      (some (mkToken TOKEN_NUMBER ['1'] 0))
      ⟨['1'], 1, [mkToken TOKEN_NUMBER ['1'] 0]⟩ rfl 1
  · exact claim_c2_peek_contract.2.2.2.2 ⟨['1'], 1, []⟩ rfl (by decide)

theorem claim_c2_counterexample :
    peek ⟨['1', ' ', '@'], 0, []⟩ =
      .ok (some (mkToken TOKEN_NUMBER ['1'] 0),
        ⟨['1', ' ', '@'], 2, [mkToken TOKEN_NUMBER ['1'] 0]⟩) ∧
    peek ⟨['1', ' ', '@'], 2, [mkToken TOKEN_NUMBER ['1'] 0]⟩ =
      .error (.thrown ("Unexpected token \x27@\x27")) :=
  ⟨rfl, rfl⟩

/-- Claim C3 (corrected): `parse` never verifies that the lexer is exhausted —
a successful `parseValue` is returned as the program whatever state remains,
and `"123 456"` yields just the numeric literal 123.  But eager lookahead
still lexes one token beyond the value, so trailing input CAN raise (e.g.
`"123 @"`), contrary to the original claim. -/
theorem claim_c3_trailing :
    (∀ input n st2,
      parseValue (3 * input.length + 8) ⟨input, 0, []⟩ = .ok (n, st2) →
      parseChars input = .ok ⟨n⟩) ∧
    parse "123 456" = .ok ⟨.numericLiteral ['1', '2', '3'] 0 3⟩ := by
  refine ⟨?_, rfl⟩
  intro input n st2 h
  unfold parseChars
  rw [h]

theorem claim_c3_witness :
    parseChars ['1', '2', '3'] = .ok ⟨.numericLiteral ['1', '2', '3'] 0 3⟩ :=
  claim_c3_trailing.1 ['1', '2', '3'] (.numericLiteral ['1', '2', '3'] 0 3)
    ⟨['1', '2', '3'], 3, []⟩ rfl

theorem claim_c3_counterexample :
    parse "123" = .ok ⟨.numericLiteral ['1', '2', '3'] 0 3⟩ ∧
    parse "123 @" = .error (.thrown ("Unexpected token \x27@\x27")) :=
  ⟨rfl, rfl⟩

/-- Claim C4 (corrected): in every successfully parsed AST, every node whose
end was assigned satisfies end ≥ start, and object and array spans enclose
their members; but the NullLiteral's end is never assigned, so the invariant
as originally claimed fails on it. -/
theorem claim_c4_spans :
    ∀ input r, parseChars input = .ok r → ∀ m, OccursIn m r.program →
      (∀ e, nodeEnd m = some e → nodeStart m ≤ e) ∧ localSpanOK m := by
  intro input r h m hm
  have hg := parseChars_good input r h m hm
  refine ⟨?_, hg.2.1⟩
  intro e he
  cases m with
  | objectLiteral ps s ee =>
    simp only [nodeEnd, Option.some.injEq] at he
    subst he
    exact hg.2.1.1
  | arrayLiteral es s ee =>
    simp only [nodeEnd, Option.some.injEq] at he
    subst he
    exact hg.2.1.1
  | stringLiteral v s ee =>
    simp only [nodeEnd, Option.some.injEq] at he
    subst he
    exact hg.2.1
  | numericLiteral v s ee =>
    simp only [nodeEnd, Option.some.injEq] at he
    subst he
    exact hg.2.1
  | booleanLiteral v s ee =>
    simp only [nodeEnd, Option.some.injEq] at he
    subst he
    exact hg.2.1
  | nullLiteral s ee =>
    have hnone : ee = none := hg.2.1
    simp only [nodeEnd, hnone] at he
    cases he

theorem claim_c4_witness :
    (∀ e, nodeEnd (.numericLiteral ['1'] 0 1) = some e →
      nodeStart (.numericLiteral ['1'] 0 1) ≤ e) ∧
    localSpanOK (.numericLiteral ['1'] 0 1) :=
  claim_c4_spans ['1'] ⟨.numericLiteral ['1'] 0 1⟩ rfl
    (.numericLiteral ['1'] 0 1) (OccursIn.refl _)

theorem claim_c4_counterexample :
    parse "null" = .ok ⟨.nullLiteral 0 none⟩ ∧
    nodeEnd (.nullLiteral 0 none) = none :=
  ⟨rfl, rfl⟩

/-- Claim C5 (corrected): the lexer's whitespace skip consumes the maximal run
of characters with code at most 32 (pairing a CR with a following LF), not
just the four characters tab, line feed, carriage return, space — e.g. the
vertical tab \x0b is also skipped, contrary to the original claim. -/
theorem claim_c5_whitespace :
    (∀ src index, skipWhitespace src index = index + wsCount (src.drop index)) ∧
    (∀ cs, ∃ pre post, cs = pre ++ post ∧ wsCount cs = pre.length ∧
      (∀ c ∈ pre, c.toNat ≤ 32) ∧ (∀ c, post.head? = some c → 32 < c.toNat)) :=
  ⟨fun src index => rfl, wsCount_spec⟩

theorem claim_c5_witness :
    ∃ pre post, ['\x0b', '1'] = pre ++ post ∧ wsCount ['\x0b', '1'] = pre.length ∧
      (∀ c ∈ pre, c.toNat ≤ 32) ∧ (∀ c, post.head? = some c → 32 < c.toNat) :=
  claim_c5_whitespace.2 ['\x0b', '1']

theorem claim_c5_counterexample :
    parse "\x0b1" = .ok ⟨.numericLiteral ['1'] 1 2⟩ ∧
    ('\x0b' ∉ ['\x09', '\n', '\x0d', ' ']) :=
  ⟨rfl, by decide⟩

/-- Claim C6 (confirmed): a string token is a double quote, a sequence of
string characters (escape sequences or plain characters that are not control
characters, not the letter b, not a quote, backslash, CR or LF) and a closing
double quote; parsing a string literal whose body holds a raw unescaped line
feed fails, and likewise a raw letter b. -/
theorem claim_c6_string_grammar :
    (∀ cs l r, matchString cs = some (l, r) →
      ∃ body, l = '"' :: body ++ ['"'] ∧ Chunks body) ∧
    (∀ c, isPlainSChar c = true ↔
      31 < c.toNat ∧ c ≠ 'b' ∧ c ≠ '"' ∧ c ≠ '\\' ∧ c ≠ '\x0d' ∧ c ≠ '\n') ∧
    (∀ body i, '"' ∉ body → body.get? i = some '\n' →
      (∀ j, i = j + 1 → body.get? j ≠ some '\\') →
      ∃ e, parseChars ('"' :: body ++ ['"']) = .error e) ∧
    (∀ body i, '"' ∉ body → body.get? i = some 'b' →
      (∀ j, j < i → i ≤ j + 5 → body.get? j ≠ some '\\') →
      ∃ e, parseChars ('"' :: body ++ ['"']) = .error e) := by
  refine ⟨?_, isPlainSChar_spec, ?_, ?_⟩
  · intro cs l r h
    obtain ⟨body, -, hl, hch⟩ := matchString_inv cs l r h
    exact ⟨body, hl, hch⟩
  · intro body i hq hlf hraw
    exact parseChars_rawlf_fails body hq i hlf hraw
  · intro body i hq hb hraw
    exact parseChars_rawb_fails body hq i hb hraw

theorem claim_c6_witness :
    (∃ body, ['"', 'a', '"'] = '"' :: body ++ ['"'] ∧ Chunks body) ∧
    (∃ e, parseChars ('"' :: ['\n'] ++ ['"']) = .error e) ∧
    (∃ e, parseChars ('"' :: ['b'] ++ ['"']) = .error e) := by
  refine ⟨?_, ?_, ?_⟩
  · exact claim_c6_string_grammar.1 ['"', 'a', '"'] ['"', 'a', '"'] [] rfl
  · exact claim_c6_string_grammar.2.2.1 ['\n'] 0 (by decide) rfl
      (fun j hj => absurd hj (by omega))
  · exact claim_c6_string_grammar.2.2.2 ['b'] 0 (by decide) rfl
      (fun j hj1 hj2 => absurd hj1 (by omega))

/-- Claim C7 (confirmed): the exponent part of a number is e or E followed by
a mandatory sign and digits; every e or E inside a matched numeric lexeme is
followed by a sign, a sign-less exponent is rejected by the exponent
recognizer, and a signed exponent numeral is one number token. -/
theorem claim_c7_exponent_sign :
    (∀ cs l r, matchNumber cs = some (l, r) →
      ∀ i c, l.get? i = some c → (c = 'e' ∨ c = 'E') →
        ∃ s2, l.get? (i + 1) = some s2 ∧ (s2 = '+' ∨ s2 = '-')) ∧
    (∀ e0 d rest, (e0 = 'e' ∨ e0 = 'E') → isDigit d = true →
      matchExp (e0 :: d :: rest) = none) ∧
    parse "123.456e+9" =
      .ok ⟨.numericLiteral ['1', '2', '3', '.', '4', '5', '6', 'e', '+', '9'] 0 10⟩ :=
  ⟨numLexeme_exp_signed, matchExp_digit_none, rfl⟩

theorem claim_c7_witness :
    (∃ s2, (['1', 'e', '+', '2'] : List Char).get? 2 = some s2 ∧
      (s2 = '+' ∨ s2 = '-')) ∧
    matchExp ['e', '1'] = none := by
  refine ⟨?_, ?_⟩
  · exact claim_c7_exponent_sign.1 ['1', 'e', '+', '2'] ['1', 'e', '+', '2'] [] rfl
      1 'e' rfl (Or.inl rfl)
  · exact claim_c7_exponent_sign.2.1 'e' '1' [] (Or.inl rfl) rfl

/-- Claim C8 (corrected): every failed parse raises an error with a message,
but the lexical error names only the offending character, never its offset
(so distinct offsets give identical messages); an `ensure` mismatch
stringifies its expected arguments as `[object Arguments]` instead of listing
them; and an `ensureType` mismatch raises a ReferenceError naming neither the
expected kinds nor the actual token, contrary to the original claim. -/
theorem claim_c8_error_messages :
    (∀ src index e, lex src index = .error e →
      e = .thrown ("Unexpected token \x27"
        ++ charAtStr src (skipWhitespace src index) ++ "\x27")) ∧
    (∀ st expected t st2, next st = .ok (.tok t, st2) →
      ¬(expected.any (fun x => decide (t.value = x)) = true) →
      ensure st expected = .error (.thrown
        ("Expected \x27[object Arguments]\x27, got \x27"
          ++ String.mk t.value ++ "\x27"))) ∧
    (∀ st expected t st2, next st = .ok (.tok t, st2) →
      ¬(expected.any (fun x => decide (t.type = x)) = true) →
      ensureType st expected = .error (.refError ("value is not defined"))) := by
  refine ⟨?_, ?_, ?_⟩
  · intro src index e h
    simp only [lex] at h
    rcases h1 : matchString (src.drop (skipWhitespace src index)) with - | ⟨l, r⟩ <;>
      simp only [h1] at h
    case some.mk => simp only [lexFinish] at h; cases h
    rcases h2 : matchNumber (src.drop (skipWhitespace src index)) with - | ⟨l, r⟩ <;>
      simp only [h2] at h
    case some.mk => simp only [lexFinish] at h; cases h
    rcases h3 : matchPunc (src.drop (skipWhitespace src index)) with - | ⟨l, r⟩ <;>
      simp only [h3] at h
    case some.mk => simp only [lexFinish] at h; cases h
    rcases h4 : matchBool (src.drop (skipWhitespace src index)) with - | ⟨l, r⟩ <;>
      simp only [h4] at h
    case some.mk => simp only [lexFinish] at h; cases h
    rcases h5 : matchNull (src.drop (skipWhitespace src index)) with - | ⟨l, r⟩ <;>
      simp only [h5] at h
    case some.mk => simp only [lexFinish] at h; cases h
    rw [Except.error.injEq] at h
    exact h.symm
  · intro st expected t st2 hn hne
    simp only [ensure, hn]
    rw [if_neg hne]
  · intro st expected t st2 hn hne
    simp only [ensureType, hn]
    rw [if_neg hne]

theorem claim_c8_witness :
    ((.thrown ("Unexpected token \x27@\x27") : JsError) =
      .thrown ("Unexpected token \x27"
        ++ charAtStr ['@'] (skipWhitespace ['@'] 0) ++ "\x27")) ∧
    ensure ⟨['2'], 0, []⟩ [commaV] =
      .error (.thrown ("Expected \x27[object Arguments]\x27, got \x27"
        ++ String.mk (mkToken TOKEN_NUMBER ['2'] 0).value ++ "\x27")) ∧
    ensureType ⟨['['], 0, []⟩ [TOKEN_STRING, TOKEN_NUMBER] =
      .error (.refError ("value is not defined")) := by
  refine ⟨?_, ?_, ?_⟩
  · exact claim_c8_error_messages.1 ['@'] 0
      (.thrown ("Unexpected token \x27@\x27")) rfl
  · exact claim_c8_error_messages.2.1 ⟨['2'], 0, []⟩ [commaV]
      (mkToken TOKEN_NUMBER ['2'] 0) ⟨['2'], 1, []⟩ rfl (by decide)
  · exact claim_c8_error_messages.2.2 ⟨['['], 0, []⟩ [TOKEN_STRING, TOKEN_NUMBER]
      (mkToken TOKEN_PUNCTUATOR ['['] 0) ⟨['['], 1, []⟩ rfl (by decide)

theorem claim_c8_counterexample :
    parse "@" = .error (.thrown ("Unexpected token \x27@\x27")) ∧
    parse " @" = .error (.thrown ("Unexpected token \x27@\x27")) ∧
    parse "\x7b[]:1\x7d" = .error (.refError ("value is not defined")) ∧
    parse "[1 2]" = .error (.thrown
      ("Expected \x27[object Arguments]\x27, got \x272\x27")) :=
  ⟨rfl, rfl, rfl, rfl⟩

/-- Claim C9 (confirmed): when the lexer is exhausted with an empty stash, the
parser primitive `is` reads `.value` of the null sentinel and raises the
TypeError of a null dereference; inputs ending inside an unclosed object or
array literal abort through exactly this path. -/
theorem claim_c9_is_null_deref :
    (∀ st v, st.stash = [] → st.source.length ≤ st.index →
      is st v = .error (.typeError
        ("Cannot read properties of null (reading \x27value\x27)"))) ∧
    parse "\x7b" = .error (.typeError
      ("Cannot read properties of null (reading \x27value\x27)")) ∧
    parse "[1," = .error (.typeError
      ("Cannot read properties of null (reading \x27value\x27)")) := by
  refine ⟨?_, rfl, rfl⟩
  intro st v h1 h2
  simp only [is, peek_exhausted st h1 h2]

theorem claim_c9_witness :
    is ⟨['1'], 1, []⟩ rbraceV =
      .error (.typeError ("Cannot read properties of null (reading \x27value\x27)")) :=
  claim_c9_is_null_deref.1 ⟨['1'], 1, []⟩ rbraceV rfl (by decide)

/-- Claim C10 (confirmed): re-parsing the lexeme of any string, number or
boolean leaf of a successfully parsed AST yields a leaf of the same kind with
the identical lexeme. -/
theorem claim_c10_reparse :
    ∀ input r, parseChars input = .ok r → ∀ m, OccursIn m r.program →
      (∀ v s e, m = .stringLiteral v s e →
        parseChars v = .ok ⟨.stringLiteral v 0 v.length⟩) ∧
      (∀ v s e, m = .numericLiteral v s e →
        parseChars v = .ok ⟨.numericLiteral v 0 v.length⟩) ∧
      (∀ v s e, m = .booleanLiteral v s e →
        parseChars v = .ok ⟨.booleanLiteral v 0 v.length⟩) := by
  intro input r h m hm
  have hg := (parseChars_good input r h m hm).1
  refine ⟨?_, ?_, ?_⟩
  · intro v s e hme
    exact reparse_string v (hg.1 v s e hme)
  · intro v s e hme
    exact reparse_number v (hg.2.1 v s e hme)
  · intro v s e hme
    rcases hg.2.2 v s e hme with rfl | rfl
    · rfl
    · rfl

theorem claim_c10_witness :
    parseChars ['1'] = .ok ⟨.numericLiteral ['1'] 0 (['1'] : List Char).length⟩ :=
  (claim_c10_reparse ['1'] ⟨.numericLiteral ['1'] 0 1⟩ rfl
    (.numericLiteral ['1'] 0 1) (OccursIn.refl _)).2.1 ['1'] 0 1 rfl

end JsonJs
